import Mathlib

/-!
Verification of the expense-tracker statement-parsing / EMI-reconstruction core.

The definitions below are a shallow embedding of the TypeScript sources:
  * `src/transactions/sync-emis.ts` (EMI extraction: `parseEMITransaction`,
    the installment-record building loop of `extractEMIs`, `addEMIInstallment`,
    the plan finalisation map, and the output document),
  * `src/transactions/extract-with-pdf-parse.ts` (the RBL "DD MMM YYYY" line
    parser and the ICICI multi-line pre-merge).

JS `number` amounts are modelled as `ℚ`; JS `Map`s (which iterate in insertion
order) are modelled as association lists in insertion order; `Array.prototype.sort`
(stable since ES2019) is modelled by a stable insertion sort.
-/

namespace ETrack

/-! ### JS string primitives (ASCII fragment, as exercised by the sources) -/

/-- ASCII whitespace, the fragment of the JS `\s` class used by the statements. -/
def isJsWS (c : Char) : Bool :=
  c = ' ' || c = '\t' || c = '\n' || c = '\r' || c = '\x0B' || c = '\x0C'

/-- `String.prototype.trim` (ASCII whitespace). -/
def jsTrim (s : String) : String :=
  ⟨((s.data.dropWhile isJsWS).reverse.dropWhile isJsWS).reverse⟩

def asciiLower (c : Char) : Char :=
  if 'A' ≤ c ∧ c ≤ 'Z' then Char.ofNat (c.toNat + 32) else c

def asciiUpper (c : Char) : Char :=
  if 'a' ≤ c ∧ c ≤ 'z' then Char.ofNat (c.toNat - 32) else c

/-- `String.prototype.toLowerCase` on ASCII text. -/
def jsToLower (s : String) : String := ⟨s.data.map asciiLower⟩

/-- `String.prototype.toUpperCase` on ASCII text. -/
def jsToUpper (s : String) : String := ⟨s.data.map asciiUpper⟩

/-- substring containment on char lists (`String.prototype.includes`). -/
def containsSub : List Char → List Char → Bool
  | [], pat => pat.isEmpty
  | c :: t, pat => pat.isPrefixOf (c :: t) || containsSub t pat

/-- `String.prototype.includes`. -/
def strContains (s pat : String) : Bool := containsSub s.data pat.data

/-- `String.prototype.startsWith`. -/
def jsStartsWith (s pat : String) : Bool := pat.data.isPrefixOf s.data

def digitVal (c : Char) : Nat := c.toNat - 48

/-- decimal value of a digit run (most significant first). -/
def digitsVal (cs : List Char) : Nat := cs.foldl (fun a c => a * 10 + digitVal c) 0

def digitChar : Nat → Char
  | 0 => '0' | 1 => '1' | 2 => '2' | 3 => '3' | 4 => '4'
  | 5 => '5' | 6 => '6' | 7 => '7' | 8 => '8' | _ => '9'

/-- fuelled decimal printer; with fuel `n + 1` it prints `n` exactly the way JS
template interpolation prints a nonnegative integer `number`. -/
def natDecimalAux : Nat → Nat → List Char
  | 0, _ => []
  | fuel + 1, n => if n < 10 then [digitChar n] else
      natDecimalAux fuel (n / 10) ++ [digitChar (n % 10)]

/-- decimal rendering of a `Nat`, as JS `${n}` renders an integral number. -/
def natDecimal (n : Nat) : String := ⟨natDecimalAux (n + 1) n⟩

/-! ### Dates: `parseIndianDate` + `Date.prototype.getTime` day count

`new Date(y, m - 1, d)` denotes local midnight of the (overflow-normalised)
civil date; statements carry a fixed UTC offset (IST, no DST), so differences of
`getTime()` values are exactly `86400000 ×` differences of the civil day counts
computed here, and `daysBetween` of the source is the absolute difference of
day counts.  `none` models an Invalid Date (`NaN` timestamp). -/

def jsSplitOnCharAux (sep : Char) : List Char → List Char → List (List Char)
  | [], acc => [acc.reverse]
  | c :: cs, acc =>
    if c = sep then acc.reverse :: jsSplitOnCharAux sep cs []
    else jsSplitOnCharAux sep cs (c :: acc)

/-- `String.prototype.split` with a single-character separator. -/
def jsSplitOnChar (sep : Char) (cs : List Char) : List (List Char) :=
  jsSplitOnCharAux sep cs []

def leadingDigitsVal (cs : List Char) : Option Nat :=
  let ds := cs.takeWhile Char.isDigit
  if ds.isEmpty then none else some (digitsVal ds)

/-- `parseInt(s, 10)`: leading whitespace, optional sign, leading digit run;
`none` models `NaN`. -/
def jsParseIntChars (cs0 : List Char) : Option Int :=
  match cs0.dropWhile isJsWS with
  | '+' :: rest => (leadingDigitsVal rest).map (fun n => (n : Int))
  | '-' :: rest => (leadingDigitsVal rest).map (fun n => -(n : Int))
  | rest => (leadingDigitsVal rest).map (fun n => (n : Int))

/-- days since 1970-01-01 of the civil date `new Date(y, m - 1, d)` denotes,
including the JS constructor's month/day overflow normalisation. -/
def daysFromCivil (y m d : Int) : Int :=
  let y1 := y + (m - 1).fdiv 12
  let m1 := (m - 1).emod 12 + 1
  let y2 := if m1 ≤ 2 then y1 - 1 else y1
  let era := y2.fdiv 400
  let yoe := y2 - era * 400
  let mp := (m1 + 9).emod 12
  let doy := (153 * mp + 2).fdiv 5 + d - 1
  let doe := yoe * 365 + yoe.fdiv 4 - yoe.fdiv 100 + doy
  era * 146097 + doe - 719468

/-- `parseIndianDate` of the source (split on `/`, `parseInt` each part,
`new Date(year, month - 1, day)`), reduced to a day count; `none` is an
Invalid Date.  JS maps constructor years 0–99 to 1900–1999. -/
def jsDateDays (s : String) : Option Int := do
  let parts := jsSplitOnChar '/' s.data
  let dPart ← parts[0]?
  let mPart ← parts[1]?
  let yPart ← parts[2]?
  let d ← jsParseIntChars dPart
  let m ← jsParseIntChars mPart
  let y ← jsParseIntChars yPart
  let y := if 0 ≤ y ∧ y ≤ 99 then y + 1900 else y
  pure (daysFromCivil y m d)

/-- the stable-sort order induced by the comparator
`parseIndianDate(a).getTime() - parseIndianDate(b).getTime()`: an element stays
before another unless the comparator is positive; a `NaN` comparison keeps
the relative order. -/
def dateLe (a b : Option Int) : Bool :=
  match a, b with
  | some x, some y => decide (x ≤ y)
  | _, _ => true

/-! ### Stable sort, modelling `Array.prototype.sort` (stable per ES2019) -/

def insertIntoSorted (le : α → α → Bool) (x : α) : List α → List α
  | [] => [x]
  | y :: ys => if le x y then x :: y :: ys else y :: insertIntoSorted le x ys

def insertionSortBy (le : α → α → Bool) : List α → List α
  | [] => []
  | x :: xs => insertIntoSorted le x (insertionSortBy le xs)

/-! ### Association lists modelling the JS `Map`s (insertion-ordered) -/

def alookup {α : Type _} : List (String × α) → String → Option α
  | [], _ => none
  | (k, v) :: rest, key => if k = key then some v else alookup rest key

def aupdate {α : Type _} (f : α → α) : List (String × α) → String → List (String × α)
  | [], _ => []
  | (k, v) :: rest, key =>
    if k = key then (k, f v) :: rest else (k, v) :: aupdate f rest key

/-! ### `parseEMITransaction` of `sync-emis.ts`

The regex `/<(\d+)\/(\d+)>(.+)/i` is deterministic once a starting `<` is
fixed — each quantified class is disjoint from the literal that follows it —
so the leftmost match is found by scanning for the first `<` whose tail parses. -/

inductive TxnType | debit | credit
deriving DecidableEq

structure Txn where
  date : String
  description : String
  amount : ℚ
  type : TxnType
deriving DecidableEq

inductive PType | interest | principal | gst
deriving DecidableEq

structure ParsedEMI where
  ptype : Option PType
  merchant : Option String
  installment : Option Nat
  total : Option Nat
deriving DecidableEq

def isLineTermChar (c : Char) : Bool := c = '\n' || c = '\r'

/-- attempt of `(\d+)\/(\d+)>(.+)` at the position just after a `<`. -/
def emiTokenAt (cs : List Char) : Option (List Char × List Char × List Char) :=
  let d1 := cs.takeWhile Char.isDigit
  if d1.isEmpty then none else
  match cs.drop d1.length with
  | '/' :: cs2 =>
    let d2 := cs2.takeWhile Char.isDigit
    if d2.isEmpty then none else
    match cs2.drop d2.length with
    | '>' :: rest =>
      let body := rest.takeWhile (fun c => !isLineTermChar c)
      if body.isEmpty then none else some (d1, d2, body)
    | _ => none
  | _ => none

/-- leftmost match of `/<(\d+)\/(\d+)>(.+)/`. -/
def matchEMIToken : List Char → Option (List Char × List Char × List Char)
  | [] => none
  | '<' :: cs =>
    match emiTokenAt cs with
    | some r => some r
    | none => matchEMIToken cs
  | _ :: cs => matchEMIToken cs

def nullParsedEMI : ParsedEMI :=
  { ptype := none, merchant := none, installment := none, total := none }

def parseEMIGstCheck (desc : String) : ParsedEMI :=
  if strContains desc "IGST" || strContains desc "GST" then
    { ptype := some PType.gst, merchant := none, installment := none, total := none }
  else nullParsedEMI

def parseEMIPrincipalCheck (description desc : String) : ParsedEMI :=
  if strContains desc "PRINCIPAL AMOUNT AMORTIZATION" then
    match matchEMIToken description.data with
    | some (d1, d2, body) =>
      { ptype := some PType.principal, merchant := some (jsTrim ⟨body⟩),
        installment := some (digitsVal d1), total := some (digitsVal d2) }
    | none => parseEMIGstCheck desc
  else parseEMIGstCheck desc

/-- `parseEMITransaction(description)` of the source: interest marker first,
then principal marker, then GST/IGST; the `<cur/total>merchant` token is
extracted from the original-case description and the merchant is trimmed. -/
def parseEMITransaction (description : String) : ParsedEMI :=
  let desc := jsToUpper description
  if strContains desc "INTEREST AMOUNT AMORTIZATION" then
    match matchEMIToken description.data with
    | some (d1, d2, body) =>
      { ptype := some PType.interest, merchant := some (jsTrim ⟨body⟩),
        installment := some (digitsVal d1), total := some (digitsVal d2) }
    | none => parseEMIPrincipalCheck description desc
  else parseEMIPrincipalCheck description desc

/-! ### The installment-record building loop of `extractEMIs` -/

structure EMIRecord where
  date : String
  merchant : String
  installment : Nat
  total : Nat
  principal : ℚ
  interest : ℚ
  gst : ℚ
  txIndex : Nat
deriving DecidableEq

/-- `recordKey` string of the source:
`` `${tx.date}|${parsed.merchant}|${parsed.installment}/${parsed.total}` ``. -/
def recordKey (date merchant : String) (ins tot : Nat) : String :=
  date ++ "|" ++ merchant ++ "|" ++ natDecimal ins ++ "/" ++ natDecimal tot

/-- the truthiness guard
`(type === interest || type === principal) && merchant && installment && total`:
`some` iff the component branch is taken; the `Bool` is `true` for interest. -/
def emiLineInfo (tx : Txn) : Option (Bool × String × Nat × Nat) :=
  let parsed := parseEMITransaction tx.description
  match parsed.ptype, parsed.merchant, parsed.installment, parsed.total with
  | some PType.interest, some m, some ins, some tot =>
    if m ≠ "" ∧ ins ≠ 0 ∧ tot ≠ 0 then some (true, m, ins, tot) else none
  | some PType.principal, some m, some ins, some tot =>
    if m ≠ "" ∧ ins ≠ 0 ∧ tot ≠ 0 then some (false, m, ins, tot) else none
  | _, _, _, _ => none

def txDist (r : EMIRecord) (i : Nat) : Nat := ((r.txIndex : Int) - (i : Int)).natAbs

/-- the GST branch: same-date records with `gst === 0`, stable-sorted by
distance of their stored transaction index to the tax line's index; the head
record (if any) gets its `gst` set to the tax amount. -/
def assignGst (st : List (String × EMIRecord)) (i : Nat) (tx : Txn) :
    List (String × EMIRecord) :=
  let cands := st.filter (fun kv => decide (kv.2.date = tx.date ∧ kv.2.gst = 0))
  let sorted := insertionSortBy (fun a b => decide (txDist a.2 i ≤ txDist b.2 i)) cands
  match sorted.head? with
  | some (k, _) => aupdate (fun r => { r with gst := tx.amount }) st k
  | none => st

/-- the fresh record created on first sight of a composite key. -/
def emiFresh (date m : String) (ins tot : Nat) (i : Nat) : EMIRecord :=
  { date := date, merchant := m, installment := ins, total := tot,
    principal := 0, interest := 0, gst := 0, txIndex := i }

/-- the component update: refresh `txIndex` and accumulate into the matching
component (`interest += amount` or `principal += amount`). -/
def emiComponentUpd (isInterest : Bool) (i : Nat) (amount : ℚ) (r : EMIRecord) :
    EMIRecord :=
  if isInterest then { r with txIndex := i, interest := r.interest + amount }
  else { r with txIndex := i, principal := r.principal + amount }

/-- one iteration of the `for (let i = 0; ...)` loop over transactions. -/
def recordStep (st : List (String × EMIRecord)) (i : Nat) (tx : Txn) :
    List (String × EMIRecord) :=
  match emiLineInfo tx with
  | some (isInterest, m, ins, tot) =>
    let key := recordKey tx.date m ins tot
    let st1 := if (alookup st key).isSome then st else
      st ++ [(key, emiFresh tx.date m ins tot i)]
    aupdate (emiComponentUpd isInterest i tx.amount) st1 key
  | none =>
    match (parseEMITransaction tx.description).ptype with
    | some PType.gst => assignGst st i tx
    | _ => st

def buildRecordsAux (st : List (String × EMIRecord)) (i : Nat) :
    List Txn → List (String × EMIRecord)
  | [] => st
  | tx :: rest => buildRecordsAux (recordStep st i tx) (i + 1) rest

/-- the full record-building loop over one statement's transactions. -/
def buildRecords (txs : List Txn) : List (String × EMIRecord) := buildRecordsAux [] 0 txs

/-! ### `addEMIInstallment` — the EMI Plan Assembler -/

inductive PlanStatus | active | completed
deriving DecidableEq

structure EMIInstallment where
  date : String
  installment_number : Nat
  total_installments : Nat
  principal : ℚ
  interest : ℚ
  gst : ℚ
  total_amount : ℚ
deriving DecidableEq

structure EMIPlan where
  merchant : String
  card_last4 : String
  card_bank : String
  total_installments : Nat
  amount_financed : ℚ
  total_interest : ℚ
  total_gst : ℚ
  total_amount : ℚ
  monthly_emi : ℚ
  installments_paid : Nat
  remaining_installments : Int
  installments : List EMIInstallment
  status : PlanStatus
  first_installment_date : Option String
  last_installment_date : Option String
deriving DecidableEq

structure EMIData where
  date : String
  merchant : String
  installment : Nat
  total : Nat
  principal : ℚ
  interest : ℚ
  gst : ℚ
deriving DecidableEq

structure CardInfo where
  bank : String
  last4 : String
deriving DecidableEq

def instDateLe (a b : EMIInstallment) : Bool := dateLe (jsDateDays a.date) (jsDateDays b.date)

/-- `installments.sort((a, b) => parse(a.date).getTime() - parse(b.date).getTime())`. -/
def sortInstallments (l : List EMIInstallment) : List EMIInstallment :=
  insertionSortBy instDateLe l

/-- `installments.reduce((max, inst) => Math.max(max, inst.installment_number), 0)`. -/
def maxInstSeen (insts : List EMIInstallment) : Nat :=
  insts.foldl (fun mx inst => max mx inst.installment_number) 0

/-- `` `${cardInfo.last4}_${emiData.merchant}_${emiData.total}` ``. -/
def emiBaseKey (e : EMIData) (c : CardInfo) : String :=
  c.last4 ++ "_" ++ e.merchant ++ "_" ++ natDecimal e.total

/-- `Array.from(emiPlans.keys()).filter(k => k.startsWith(baseKey + "_"))`;
a JS `Map` iterates its keys in insertion order. -/
def candidateKeysOf (plans : List (String × EMIPlan)) (e : EMIData) (c : CardInfo) :
    List String :=
  (plans.map Prod.fst).filter (fun k => jsStartsWith k (emiBaseKey e c ++ "_"))

/-- `dateGap`: `999` for an empty plan, `NaN` (`none`) when either date fails to
parse, else the day distance to the plan's final (sorted-last) installment. -/
def dateGapOf (plan : EMIPlan) (e : EMIData) : Option Nat :=
  match plan.installments.getLast? with
  | none => some 999
  | some lastInst =>
    match jsDateDays lastInst.date, jsDateDays e.date with
    | some a, some b => some (a - b).natAbs
    | _, _ => none

/-- `canAppend`: strictly larger installment number and `dateGap >= 20`
(a `NaN` gap compares `false`). -/
def canAppend (plan : EMIPlan) (e : EMIData) : Bool :=
  decide (maxInstSeen plan.installments < e.installment) &&
    (match dateGapOf plan e with
     | some g => decide (20 ≤ g)
     | none => false)

/-- the `keyToUse` computation: first candidate plan (in creation order) that
`canAppend`, else `` `${baseKey}_${candidateKeys.length + 1}` ``. -/
def chooseKey (plans : List (String × EMIPlan)) (e : EMIData) (c : CardInfo) : String :=
  let cands := candidateKeysOf plans e c
  match cands.find? (fun k =>
      match alookup plans k with
      | some p => canAppend p e
      | none => false) with
  | some k => k
  | none => emiBaseKey e c ++ "_" ++ natDecimal (cands.length + 1)

/-- the installment object pushed at lines 586-594 of the source;
`total_amount` is computed here, once, as `principal + interest + gst`. -/
def mkInstallment (e : EMIData) : EMIInstallment :=
  { date := e.date, installment_number := e.installment, total_installments := e.total,
    principal := e.principal, interest := e.interest, gst := e.gst,
    total_amount := e.principal + e.interest + e.gst }

/-- push + re-sort + recompute `installments_paid` / `remaining_installments`. -/
def pushInstallment (plan : EMIPlan) (e : EMIData) : EMIPlan :=
  let insts := sortInstallments (plan.installments ++ [mkInstallment e])
  let paid := maxInstSeen insts
  { plan with
    installments := insts
    installments_paid := paid
    remaining_installments := max 0 ((plan.total_installments : Int) - (paid : Int)) }

/-- the fresh plan object of lines 566-581. -/
def newPlan (e : EMIData) (c : CardInfo) : EMIPlan :=
  { merchant := e.merchant, card_last4 := c.last4, card_bank := c.bank,
    total_installments := e.total, amount_financed := 0, total_interest := 0,
    total_gst := 0, total_amount := 0, monthly_emi := 0,
    installments_paid := e.installment, remaining_installments := (e.total : Int),
    installments := [], status := PlanStatus.active,
    first_installment_date := some e.date, last_installment_date := none }

/-- `addEMIInstallment(emiPlans, emiData, cardInfo)`. -/
def addEMIInstallment (plans : List (String × EMIPlan)) (e : EMIData) (c : CardInfo) :
    List (String × EMIPlan) :=
  let key := chooseKey plans e c
  let plans1 := if (alookup plans key).isSome then plans
    else plans ++ [(key, newPlan e c)]
  aupdate (fun p => pushInstallment p e) plans1 key

/-! ### Plan finalisation and the output document of `extractEMIs` -/

def sumBy (f : EMIInstallment → ℚ) (l : List EMIInstallment) : ℚ := (l.map f).sum

/-- the per-plan finalisation map (totals, monthly mean, paid/remaining,
status, date-sorted installments, first/last dates). -/
def finalizePlan (plan : EMIPlan) : EMIPlan :=
  let af := sumBy (fun inst => inst.principal) plan.installments
  let ti := sumBy (fun inst => inst.interest) plan.installments
  let tg := sumBy (fun inst => inst.gst) plan.installments
  let me := if plan.installments.length ≠ 0 then
      sumBy (fun inst => inst.total_amount) plan.installments / (plan.installments.length : ℚ)
    else 0
  let paid := maxInstSeen plan.installments
  let remaining := max 0 ((plan.total_installments : Int) - (paid : Int))
  let sorted := sortInstallments plan.installments
  { plan with
    amount_financed := af
    total_interest := ti
    total_gst := tg
    total_amount := af + ti + tg
    monthly_emi := me
    installments_paid := paid
    remaining_installments := remaining
    status := if remaining = 0 then PlanStatus.completed else PlanStatus.active
    installments := sorted
    first_installment_date := sorted.head?.map (fun inst => inst.date)
    last_installment_date := sorted.getLast?.map (fun inst => inst.date) }

/-- leftmost match of `/xxxx(\d{2})_/`. -/
def findXxxxLast4 : List Char → Option String
  | [] => none
  | c :: cs =>
    match c, cs with
    | 'x', 'x' :: 'x' :: 'x' :: c1 :: c2 :: '_' :: _ =>
      if c1.isDigit && c2.isDigit then some ⟨[c1, c2]⟩ else findXxxxLast4 cs
    | _, _ => findXxxxLast4 cs

/-- `extractCardInfo(filename)`. -/
def extractCardInfo (filename : String) : CardInfo :=
  if strContains filename "6529" then ⟨"ICICI Bank", "7003"⟩
  else if strContains filename "4315" then ⟨"ICICI Bank", "2003"⟩
  else if strContains filename "xxxx" then
    match findXxxxLast4 filename.data with
    | some l4 => ⟨"RBL Bank", l4⟩
    | none => ⟨"RBL Bank", "XX89"⟩
  else ⟨"Unknown Bank", "****"⟩

structure Extraction where
  filename : String
  transactions : List Txn
deriving DecidableEq

def recordToEMIData (r : EMIRecord) : EMIData :=
  { date := r.date, merchant := r.merchant, installment := r.installment,
    total := r.total, principal := r.principal, interest := r.interest, gst := r.gst }

/-- processing of one statement file: build its installment records, then feed
them (in `Map.values()` = insertion order) to the plan assembler. -/
def processExtraction (plans : List (String × EMIPlan)) (ex : Extraction) :
    List (String × EMIPlan) :=
  let c := extractCardInfo ex.filename
  (buildRecords ex.transactions).foldl
    (fun ps kv => addEMIInstallment ps (recordToEMIData kv.2) c) plans

/-- the whole `extractEMIs` accumulation over all statement files. -/
def runPipeline (exs : List Extraction) : List (String × EMIPlan) :=
  exs.foldl processExtraction []

def emiListOf (plans : List (String × EMIPlan)) : List EMIPlan :=
  plans.map (fun kv => finalizePlan kv.2)

structure EMIOutput where
  extractedAt : String
  totalEMIPlans : Nat
  activeEMIs : Nat
  completedEMIs : Nat
  totalAmountFinanced : ℚ
  totalInterestPaid : ℚ
  totalGSTPaid : ℚ
  emiPlans : List EMIPlan
deriving DecidableEq

/-- the `output` object written to `emi-plans.json`; `now` models
`new Date().toISOString()`. -/
def buildOutput (now : String) (exs : List Extraction) : EMIOutput :=
  let emiList := emiListOf (runPipeline exs)
  { extractedAt := now,
    totalEMIPlans := emiList.length,
    activeEMIs := (emiList.filter (fun p => decide (p.status = PlanStatus.active))).length,
    completedEMIs := (emiList.filter (fun p => decide (p.status = PlanStatus.completed))).length,
    totalAmountFinanced := (emiList.map (fun p => p.amount_financed)).sum,
    totalInterestPaid := (emiList.map (fun p => p.total_interest)).sum,
    totalGSTPaid := (emiList.map (fun p => p.total_gst)).sum,
    emiPlans := insertionSortBy
      (fun a b => decide (b.amount_financed ≤ a.amount_financed)) emiList }

/-! ### `extract-with-pdf-parse.ts` — Layout B (ICICI) line pre-merge -/

/-- the `/^\d{2}\/\d{2}\/\d{4}\s+\d{8,}/` transaction-start test: each class is
disjoint from its successor, so the anchored test is this deterministic scan. -/
def isICICITxStart (line : String) : Bool :=
  match line.data with
  | d1 :: d2 :: '/' :: d3 :: d4 :: '/' :: y1 :: y2 :: y3 :: y4 :: rest =>
    d1.isDigit && d2.isDigit && d3.isDigit && d4.isDigit &&
    y1.isDigit && y2.isDigit && y3.isDigit && y4.isDigit &&
    (let w := rest.takeWhile isJsWS
     decide (1 ≤ w.length) &&
       decide (8 ≤ ((rest.drop w.length).takeWhile Char.isDigit).length))
  | _ => false

/-- one iteration of the line-combining loop: accumulator is the pair
(combined lines so far, current buffer — `""` when no transaction is open). -/
def combineStep (acc : List String × String) (line : String) : List String × String :=
  let (combined, current) := acc
  if isICICITxStart line then
    (if current ≠ "" then combined ++ [current] else combined, line)
  else if current ≠ "" then (combined, current ++ " " ++ jsTrim line)
  else (combined, current)

/-- the full pre-merge: fold the loop, then flush the last open buffer. -/
def combineICICILines (lines : List String) : List String :=
  let (combined, current) := lines.foldl combineStep ([], "")
  if current ≠ "" then combined ++ [current] else combined

/-! ### `extract-with-pdf-parse.ts` — Layout A (RBL) per-line match

The regex
`/^(\d{1,2}\s+(?:Jan|…|Dec)\s+\d{4})\s+(.+?)\s+([\d,]+\.\d{2})\s*$/i`
is implemented by a faithful backtracking search: the date segment is
deterministic (each quantified class is disjoint from its successor); the
greedy `\s+` before the lazy description is explored longest-first, and the
description shortest-first, which is exactly the regex engine's priority. -/

def isMonthTriple (a b c : Char) : Bool :=
  let m : List Char := [asciiLower a, asciiLower b, asciiLower c]
  m = ['j','a','n'] || m = ['f','e','b'] || m = ['m','a','r'] || m = ['a','p','r'] ||
  m = ['m','a','y'] || m = ['j','u','n'] || m = ['j','u','l'] || m = ['a','u','g'] ||
  m = ['s','e','p'] || m = ['o','c','t'] || m = ['n','o','v'] || m = ['d','e','c']

/-- parse `(\d{1,2}\s+Month\s+\d{4})` at line start; returns the captured date
characters and the remainder of the line. -/
def rblDateMatch (cs : List Char) : Option (List Char × List Char) :=
  let ds := cs.takeWhile Char.isDigit
  if ds.isEmpty || decide (2 < ds.length) then none else
  let cs1 := cs.drop ds.length
  let w1 := cs1.takeWhile isJsWS
  if w1.isEmpty then none else
  match cs1.drop w1.length with
  | m1 :: m2 :: m3 :: cs3 =>
    if isMonthTriple m1 m2 m3 then
      let w2 := cs3.takeWhile isJsWS
      if w2.isEmpty then none else
      let cs4 := cs3.drop w2.length
      let ys := cs4.takeWhile Char.isDigit
      if ys.length = 4 then
        some (ds ++ w1 ++ [m1, m2, m3] ++ w2 ++ ys, cs4.drop 4)
      else none
    else none
  | _ => none

/-- match `\s+([\d,]+\.\d{2})\s*$` against a suffix; returns the amount capture. -/
def amtTail (cs : List Char) : Option (List Char) :=
  let w := cs.takeWhile isJsWS
  if w.isEmpty then none else
  let cs1 := cs.drop w.length
  let dc := cs1.takeWhile (fun c => c.isDigit || c = ',')
  if dc.isEmpty then none else
  match cs1.drop dc.length with
  | '.' :: a :: b :: rest =>
    if a.isDigit && b.isDigit && rest.all isJsWS then some (dc ++ '.' :: [a, b])
    else none
  | _ => none

/-- `.` of a JS regex: any character except a line terminator. -/
def isDotChar (c : Char) : Bool := !(c = '\n' || c = '\r')

/-- search `\s+(.+?)\s+([\d,]+\.\d{2})\s*$`: whitespace run longest-first
(greedy), then description shortest-first (lazy). -/
def rblTailSearch (cs : List Char) : Option (List Char × List Char) :=
  let maxW := (cs.takeWhile isJsWS).length
  (List.range maxW).findSome? (fun j =>
    let w := maxW - j
    let rest := cs.drop w
    (List.range rest.length).findSome? (fun d1 =>
      let d := d1 + 1
      let desc := rest.take d
      if desc.all isDotChar then
        (amtTail (rest.drop d)).map (fun amt => (desc, amt))
      else none))

/-- the whole-line RBL match: `some (date, description, amount)` groups. -/
def rblMatch (line : String) : Option (String × String × String) :=
  match rblDateMatch line.data with
  | none => none
  | some (date, rest) =>
    match rblTailSearch rest with
    | none => none
    | some (desc, amt) => some (⟨date⟩, ⟨desc⟩, ⟨amt⟩)

/-- integer-part digits of a de-comma'd amount string. -/
def amountIntDigits (s : String) : List Char :=
  (s.data.filter (fun c => c ≠ ',')).takeWhile Char.isDigit

/-- fractional-part digits of a de-comma'd amount string. -/
def amountFracDigits (s : String) : List Char :=
  ((s.data.filter (fun c => c ≠ ',')).drop ((amountIntDigits s).length + 1)).takeWhile
    Char.isDigit

/-- `parseFloat(amtStr.replace(/,/g, ''))` for strings of shape
`[\d,]+\.\d{2}` (the only shape the RBL amount capture can have). -/
def parseAmountRat (s : String) : ℚ :=
  (digitsVal (amountIntDigits s) : ℚ) +
    (digitsVal (amountFracDigits s) : ℚ) / (10 : ℚ) ^ (amountFracDigits s).length

/-- the RBL branch body for one line: match, skip zero amounts and header-ish
descriptions, then classify: credit iff the description contains both
`payment` and `received` (lower-cased). -/
def parseRBLLine (line : String) : Option Txn :=
  match rblMatch line with
  | none => none
  | some (date, desc, amtStr) =>
    let amount := parseAmountRat amtStr
    if amount = 0 ∨ strContains (jsToLower desc) "description" = true ∨
        strContains (jsToLower desc) "amount" = true then none
    else
      let isCredit := strContains (jsToLower desc) "payment" &&
        strContains (jsToLower desc) "received"
      some { date := jsTrim date, description := jsTrim desc, amount := amount,
             type := if isCredit then TxnType.credit else TxnType.debit }

/-! ### Basic lemmas about the association-list `Map` model -/

lemma alookup_eq_none {α : Type _} (l : List (String × α)) (k : String) :
    alookup l k = none ↔ k ∉ l.map Prod.fst := by
  induction l with
  | nil => simp [alookup]
  | cons kv rest ih =>
    obtain ⟨k', v⟩ := kv
    by_cases h : k' = k
    · subst h; simp [alookup]
    · simp only [alookup, if_neg h, ih, List.map_cons, List.mem_cons]
      constructor
      · exact fun hnm hmem => hmem.elim (fun he => h he.symm) hnm
      · exact fun hnm hm => hnm (Or.inr hm)

lemma alookup_mem {α : Type _} {l : List (String × α)} {k : String} {v : α}
    (h : alookup l k = some v) : (k, v) ∈ l := by
  induction l with
  | nil => simp [alookup] at h
  | cons kv rest ih =>
    obtain ⟨k', v'⟩ := kv
    by_cases hk : k' = k
    · subst hk
      simp [alookup] at h
      simp [h]
    · simp [alookup, hk] at h
      exact List.mem_cons_of_mem _ (ih h)

lemma alookup_isSome_of_mem_keys {α : Type _} {l : List (String × α)} {k : String}
    (h : k ∈ l.map Prod.fst) : (alookup l k).isSome := by
  rcases ho : alookup l k with _ | v
  · exact absurd ((alookup_eq_none l k).mp ho) (by simp [h])
  · rfl

lemma alookup_append {α : Type _} (l₁ l₂ : List (String × α)) (k : String) :
    alookup (l₁ ++ l₂) k =
      match alookup l₁ k with
      | some v => some v
      | none => alookup l₂ k := by
  induction l₁ with
  | nil => simp [alookup]
  | cons kv rest ih =>
    obtain ⟨k', v'⟩ := kv
    by_cases h : k' = k <;> simp [alookup, h, ih]

lemma alookup_aupdate_self {α : Type _} (f : α → α) (l : List (String × α)) (k : String) :
    alookup (aupdate f l k) k = (alookup l k).map f := by
  induction l with
  | nil => simp [alookup, aupdate]
  | cons kv rest ih =>
    obtain ⟨k', v'⟩ := kv
    by_cases h : k' = k <;> simp [alookup, aupdate, h, ih]

lemma alookup_aupdate_ne {α : Type _} (f : α → α) (l : List (String × α)) {k k' : String}
    (h : k' ≠ k) : alookup (aupdate f l k) k' = alookup l k' := by
  induction l with
  | nil => simp [aupdate]
  | cons kv rest ih =>
    obtain ⟨k₀, v₀⟩ := kv
    by_cases h0 : k₀ = k
    · subst h0
      simp [aupdate, alookup, Ne.symm h]
    · by_cases h1 : k₀ = k'
      · subst h1
        simp [aupdate, alookup, h0]
      · simp [aupdate, alookup, h0, h1, ih]

lemma aupdate_keys {α : Type _} (f : α → α) (l : List (String × α)) (k : String) :
    (aupdate f l k).map Prod.fst = l.map Prod.fst := by
  induction l with
  | nil => simp [aupdate]
  | cons kv rest ih =>
    obtain ⟨k', v'⟩ := kv
    by_cases h : k' = k <;> simp [aupdate, h, ih]

lemma mem_aupdate {α : Type _} {f : α → α} {l : List (String × α)} {k : String}
    {kv : String × α} (h : kv ∈ aupdate f l k) :
    kv ∈ l ∨ ∃ v, (k, v) ∈ l ∧ kv = (k, f v) := by
  induction l with
  | nil => simp [aupdate] at h
  | cons kv₀ rest ih =>
    obtain ⟨k₀, v₀⟩ := kv₀
    by_cases hk : k₀ = k
    · subst hk
      simp [aupdate] at h
      rcases h with h | h
      · exact Or.inr ⟨v₀, by simp, h⟩
      · exact Or.inl (List.mem_cons_of_mem _ h)
    · simp [aupdate, hk] at h
      rcases h with h | h
      · exact Or.inl (by simp [h])
      · rcases ih h with h' | ⟨v, hv, hkv⟩
        · exact Or.inl (List.mem_cons_of_mem _ h')
        · exact Or.inr ⟨v, List.mem_cons_of_mem _ hv, hkv⟩

lemma aupdate_append_not_mem {α : Type _} (f : α → α) {l : List (String × α)} {k : String}
    (v : α) (h : k ∉ l.map Prod.fst) :
    aupdate f (l ++ [(k, v)]) k = l ++ [(k, f v)] := by
  induction l with
  | nil => simp [aupdate]
  | cons kv rest ih =>
    obtain ⟨k₀, v₀⟩ := kv
    have h1 : k ≠ k₀ := fun he => h (by simp [he])
    have h2 : k ∉ rest.map Prod.fst := fun hm => h (by simp [hm])
    simp [aupdate, Ne.symm h1, ih h2]

lemma alookup_unique {α : Type _} {l : List (String × α)} {k : String} {v : α}
    (hnd : (l.map Prod.fst).Nodup) (h : (k, v) ∈ l) : alookup l k = some v := by
  induction l with
  | nil => simp at h
  | cons kv rest ih =>
    obtain ⟨k₀, v₀⟩ := kv
    rw [List.map_cons, List.nodup_cons] at hnd
    rcases List.mem_cons.mp h with he | hm
    · cases he
      simp [alookup]
    · have hne : k₀ ≠ k := by
        intro heq
        subst heq
        exact hnd.1 (List.mem_map.mpr ⟨(k₀, v), hm, rfl⟩)
      simp [alookup, hne, ih hnd.2 hm]

lemma aupdate_split {α : Type _} (f : α → α) {l : List (String × α)} {k : String} {v : α}
    (hnd : (l.map Prod.fst).Nodup) (h : (k, v) ∈ l) :
    ∃ l₁ l₂, l = l₁ ++ (k, v) :: l₂ ∧ aupdate f l k = l₁ ++ (k, f v) :: l₂ := by
  induction l with
  | nil => simp at h
  | cons kv₀ rest ih =>
    obtain ⟨k₀, v₀⟩ := kv₀
    rw [List.map_cons, List.nodup_cons] at hnd
    rcases List.mem_cons.mp h with he | hm
    · cases he
      exact ⟨[], rest, by simp, by simp [aupdate]⟩
    · have hne : k₀ ≠ k := by
        intro heq
        subst heq
        exact hnd.1 (List.mem_map.mpr ⟨(k₀, v), hm, rfl⟩)
      obtain ⟨l₁, l₂, he, hu⟩ := ih hnd.2 hm
      exact ⟨(k₀, v₀) :: l₁, l₂, by simp [he], by simp [aupdate, hne, hu]⟩

lemma filter_key_length_le_one {α : Type _} {l : List (String × α)} {k : String}
    (hnd : (l.map Prod.fst).Nodup) :
    (l.filter (fun kv => decide (kv.1 = k))).length ≤ 1 := by
  induction l with
  | nil => simp
  | cons kv rest ih =>
    obtain ⟨k₀, v₀⟩ := kv
    rw [List.map_cons, List.nodup_cons] at hnd
    by_cases h : k₀ = k
    · subst h
      have hz : rest.filter (fun kv => decide (kv.1 = k₀)) = [] := by
        rw [List.filter_eq_nil_iff]
        intro kv hkv
        simp only [decide_eq_true_eq]
        intro he
        exact hnd.1 (List.mem_map.mpr ⟨kv, hkv, he⟩)
      simp [List.filter, hz]
    · simpa [List.filter, h] using ih hnd.2

/-! ### Lemmas about the stable-sort model -/

lemma insertIntoSorted_perm (le : α → α → Bool) (x : α) (l : List α) :
    (insertIntoSorted le x l).Perm (x :: l) := by
  induction l with
  | nil => simp [insertIntoSorted]
  | cons y ys ih =>
    by_cases h : le x y
    · simp [insertIntoSorted, h]
    · simp only [insertIntoSorted, h, Bool.false_eq_true, if_false]
      exact ((ih.cons y).trans (List.Perm.swap x y ys))

lemma insertionSortBy_perm (le : α → α → Bool) (l : List α) :
    (insertionSortBy le l).Perm l := by
  induction l with
  | nil => simp [insertionSortBy]
  | cons x xs ih =>
    exact (insertIntoSorted_perm le x _).trans (ih.cons x)

lemma sort_head_le (le : α → α → Bool)
    (htot : ∀ a b, (le a b || le b a) = true)
    (htrans : ∀ a b c, le a b = true → le b c = true → le a c = true) :
    ∀ (l : List α) (h : α) (t : List α), insertionSortBy le l = h :: t →
      ∀ x ∈ l, le h x = true := by
  have hrefl : ∀ z : α, le z z = true := by
    intro z
    have := htot z z
    simpa using this
  intro l
  induction l with
  | nil => intro h t he x hx; simp at hx
  | cons a as ih =>
    intro h t he x hx
    rcases hs : insertionSortBy le as with _ | ⟨h', t'⟩
    · have hnil : as = [] := by
        have hp := insertionSortBy_perm le as
        rw [hs] at hp
        exact (hp.symm).eq_nil
      subst hnil
      have hone : insertionSortBy le [a] = [a] := rfl
      rw [hone] at he
      injection he with he1 he2
      rw [← he1]
      have hx' : x = a := by simpa using hx
      rw [hx']
      exact hrefl a
    · have hih := fun x hx => ih h' t' hs x hx
      simp only [insertionSortBy, hs] at he
      by_cases hle : le a h' = true
      · rw [insertIntoSorted, if_pos hle] at he
        injection he with he1 he2
        rw [← he1]
        rcases List.mem_cons.mp hx with hxa | hxs
        · rw [hxa]; exact hrefl a
        · exact htrans _ _ _ hle (hih x hxs)
      · rw [insertIntoSorted, if_neg hle] at he
        injection he with he1 he2
        rw [← he1]
        rcases List.mem_cons.mp hx with hxa | hxs
        · rw [hxa]
          have h2 := htot a h'
          rcases Bool.or_eq_true_iff.mp h2 with h3 | h3
          · exact absurd h3 hle
          · exact h3
        · exact hih x hxs

/-! ### Decimal-rendering lemmas -/

lemma digitChar_isDigit (k : Nat) : (digitChar k).isDigit = true := by
  rcases k with _|_|_|_|_|_|_|_|_|k <;> rfl

lemma digitVal_digitChar (k : Nat) (h : k < 10) : digitVal (digitChar k) = k := by
  interval_cases k <;> rfl

lemma digitsVal_append_digit (a : List Char) (c : Char) :
    digitsVal (a ++ [c]) = digitsVal a * 10 + digitVal c := by
  simp [digitsVal, List.foldl_append]

lemma natDecimalAux_val : ∀ fuel n, n < fuel → digitsVal (natDecimalAux fuel n) = n := by
  intro fuel
  induction fuel with
  | zero => intro n h; omega
  | succ fuel ih =>
    intro n h
    by_cases h10 : n < 10
    · simp [natDecimalAux, h10, digitsVal, digitVal_digitChar n h10]
    · have hpos : 0 < n := by omega
      have hlt : n / 10 < fuel := by
        have := Nat.div_lt_self hpos (by norm_num : 1 < 10)
        omega
      rw [natDecimalAux, if_neg h10, digitsVal_append_digit, ih _ hlt,
        digitVal_digitChar _ (Nat.mod_lt _ (by norm_num))]
      omega

lemma natDecimal_val (n : Nat) : digitsVal (natDecimal n).data = n :=
  natDecimalAux_val (n + 1) n (Nat.lt_succ_self n)

lemma natDecimal_inj {m n : Nat} (h : natDecimal m = natDecimal n) : m = n := by
  have hd : (natDecimal m).data = (natDecimal n).data := by rw [h]
  have := natDecimal_val m
  rw [hd, natDecimal_val n] at this
  exact this.symm

lemma natDecimalAux_digits :
    ∀ fuel n c, c ∈ natDecimalAux fuel n → c.isDigit = true := by
  intro fuel
  induction fuel with
  | zero => intro n c h; simp [natDecimalAux] at h
  | succ fuel ih =>
    intro n c h
    by_cases h10 : n < 10
    · rw [natDecimalAux, if_pos h10] at h
      simp at h
      rw [h]
      exact digitChar_isDigit n
    · rw [natDecimalAux, if_neg h10] at h
      rcases List.mem_append.mp h with h' | h'
      · exact ih _ _ h'
      · simp at h'
        rw [h']
        exact digitChar_isDigit _

lemma natDecimal_digits {n : Nat} {c : Char} (h : c ∈ (natDecimal n).data) :
    c.isDigit = true :=
  natDecimalAux_digits (n + 1) n c h

lemma isDigit_ne_sep {c : Char} (h : c.isDigit = true) :
    c ≠ '_' ∧ c ≠ '|' ∧ c ≠ '/' := by
  refine ⟨?_, ?_, ?_⟩ <;> intro he <;> rw [he] at h <;> exact absurd h (by decide)

/-! ### Separator-split injectivity for the stringly-typed keys -/

lemma append_sep_fst_inj {sep : Char} :
    ∀ {a b x y : List Char}, sep ∉ a → sep ∉ b →
      a ++ sep :: x = b ++ sep :: y → a = b ∧ x = y := by
  intro a
  induction a with
  | nil =>
    intro b x y _ hb he
    cases b with
    | nil => simpa using he
    | cons c b' =>
      simp at he
      exact absurd (he.1 ▸ List.mem_cons_self c b') (he.1 ▸ hb)
  | cons c a' ih =>
    intro b x y ha hb he
    cases b with
    | nil =>
      simp at he
      exact absurd (he.1 ▸ List.mem_cons_self c a') (he.1 ▸ ha)
    | cons c' b' =>
      simp at he
      have ha' : sep ∉ a' := fun hm => ha (List.mem_cons_of_mem _ hm)
      have hb' : sep ∉ b' := fun hm => hb (List.mem_cons_of_mem _ hm)
      obtain ⟨h1, h2⟩ := ih ha' hb' he.2
      exact ⟨by rw [he.1, h1], h2⟩

lemma append_sep_last_inj {sep : Char} :
    ∀ {a b x y : List Char}, sep ∉ x → sep ∉ y →
      a ++ sep :: x = b ++ sep :: y → a = b ∧ x = y := by
  intro a
  induction a with
  | nil =>
    intro b x y hx _ he
    cases b with
    | nil => simpa using he
    | cons c b' =>
      simp at he
      exact absurd (by rw [he.2]; exact List.mem_append_right _ (List.mem_cons_self sep y))
        hx
  | cons c a' ih =>
    intro b x y hx hy he
    cases b with
    | nil =>
      simp at he
      exact absurd (by rw [← he.2]; exact List.mem_append_right _ (List.mem_cons_self sep x))
        hy
    | cons c' b' =>
      simp at he
      obtain ⟨h1, h2⟩ := ih hx hy he.2
      exact ⟨by rw [he.1, h1], h2⟩

/-! ### A sorted chain ends in a date-maximal element -/

def chainLeBy (le : α → α → Bool) : List α → Bool
  | [] => true
  | [_] => true
  | a :: b :: rest => le a b && chainLeBy le (b :: rest)

lemma chain_last_ge :
    ∀ (l : List EMIInstallment), chainLeBy instDateLe l = true →
      (∀ inst ∈ l, (jsDateDays inst.date).isSome) →
      ∀ lst, l.getLast? = some lst →
      ∀ dl : Int, jsDateDays lst.date = some dl →
      ∀ inst ∈ l, ∀ d : Int, jsDateDays inst.date = some d → d ≤ dl := by
  intro l
  induction l with
  | nil => intro _ _ lst hl; simp at hl
  | cons a as ih =>
    intro hs hwf lst hl dl hdl inst hmem d hd
    cases as with
    | nil =>
      simp at hl hmem
      subst hl
      subst hmem
      rw [hd] at hdl
      cases hdl
      exact le_refl _
    | cons b t =>
      have hs' : instDateLe a b = true ∧ chainLeBy instDateLe (b :: t) = true := by
        rw [chainLeBy] at hs
        exact Bool.and_eq_true_iff.mp hs
      have hl' : (b :: t).getLast? = some lst := by
        rw [List.getLast?_cons_cons] at hl
        exact hl
      have hwf' : ∀ inst ∈ b :: t, (jsDateDays inst.date).isSome := by
        intro i hi
        exact hwf i (List.mem_cons_of_mem _ hi)
      rcases List.mem_cons.mp hmem with he | hm
      · subst he
        obtain ⟨db, hdb⟩ := Option.isSome_iff_exists.mp
          (hwf' b (List.mem_cons_self b t))
        have hab : d ≤ db := by
          have := hs'.1
          rw [instDateLe, hd, hdb] at this
          simpa [dateLe] using this
        have hbl : db ≤ dl :=
          ih hs'.2 hwf' lst hl' dl hdl b (List.mem_cons_self b t) db hdb
        exact le_trans hab hbl
      · exact ih hs'.2 hwf' lst hl' dl hdl inst hm d hd

/-! ### `maxInstSeen` is invariant under permutation -/

lemma maxInstSeen_perm {l₁ l₂ : List EMIInstallment} (h : l₁.Perm l₂) :
    maxInstSeen l₁ = maxInstSeen l₂ := by
  haveI : RightCommutative (fun (mx : Nat) (inst : EMIInstallment) =>
      max mx inst.installment_number) := ⟨fun b a1 a2 => by simp [Nat.max_assoc]; omega⟩
  exact h.foldl_eq 0

/-! ### Small string facts used by the claim theorems -/

lemma str_data_eq {s t : String} (h : s.data = t.data) : s = t :=
  congrArg String.mk h

lemma str_append_ne_empty (s t : String) (h : s ≠ "") : s ++ t ≠ "" := by
  intro he
  apply h
  have hd : s.data ++ t.data = [] := by
    rw [← String.data_append, he]
  apply str_data_eq
  simpa using List.append_eq_nil.mp hd |>.1

/-! ### Claim C6 — Layout B pre-merge of physical lines -/

/-- Claim C6, counterexample to the claim as stated: a transaction-start line
followed by two continuation lines does not in general combine into the plain
space-joined concatenation of the three physical lines, because the source
trims each continuation line (`currentLine += ' ' + line.trim()`). -/
theorem icici_premerge_raw_join_cx :
    combineICICILines ["01/01/2025 12345678 A", "B ", "C"] ≠
      ["01/01/2025 12345678 A" ++ " " ++ "B " ++ " " ++ "C"] := by decide

/-- Claim C6 (amended): a transaction-start line followed by two
non-transaction-start physical lines combines into one logical line that is the
start line followed by the space-joined *trimmed* continuation lines. -/
theorem icici_premerge_trimmed_join (s c1 c2 : String)
    (hs : isICICITxStart s = true)
    (h1 : isICICITxStart c1 = false)
    (h2 : isICICITxStart c2 = false) :
    combineICICILines [s, c1, c2] = [s ++ " " ++ jsTrim c1 ++ " " ++ jsTrim c2] := by
  have hsne : s ≠ "" := by
    intro he
    rw [he] at hs
    exact absurd hs (by decide)
  have ha1 : s ++ " " ++ jsTrim c1 ≠ "" :=
    str_append_ne_empty _ _ (str_append_ne_empty _ _ hsne)
  have e1 : combineStep ([], "") s = ([], s) := by
    simp [combineStep, hs]
  have e2 : combineStep ([], s) c1 = ([], s ++ " " ++ jsTrim c1) := by
    simp [combineStep, h1, hsne]
  have e3 : combineStep ([], s ++ " " ++ jsTrim c1) c2 =
      ([], s ++ " " ++ jsTrim c1 ++ " " ++ jsTrim c2) := by
    simp [combineStep, h2, ha1]
  have ha2 : s ++ " " ++ jsTrim c1 ++ " " ++ jsTrim c2 ≠ "" :=
    str_append_ne_empty _ _ (str_append_ne_empty _ _ ha1)
  simp [combineICICILines, e1, e2, e3, ha2]

/-- Claim C6, concrete instance of the amended statement. -/
theorem icici_premerge_trimmed_join_check :
    combineICICILines ["01/01/2025 12345678 A", "B ", "C"] =
      ["01/01/2025 12345678 A" ++ " " ++ jsTrim "B " ++ " " ++ jsTrim "C"] :=
  icici_premerge_trimmed_join "01/01/2025 12345678 A" "B " "C"
    (by decide) (by decide) (by decide)

/-! ### Claim C7 — Layout A (RBL) credit classification -/

/-- Claim C7, counterexample to the claim as stated: a matched line whose
description contains the refund keyword is classified `debit` by the
pdf-parse RBL branch, which only treats `payment` + `received` as credit. -/
theorem rbl_refund_debit_cx :
    (parseRBLLine "26 Dec 2025 REFUND ADIDAS 500.00").map
        (fun t => (t.description, t.type)) = some ("REFUND ADIDAS", TxnType.debit) ∧
      strContains (jsToLower "REFUND ADIDAS") "refund" = true := by
  constructor
  · have hm : rblMatch "26 Dec 2025 REFUND ADIDAS 500.00" =
        some ("26 Dec 2025", "REFUND ADIDAS", "500.00") := by decide
    have hA : parseAmountRat "500.00" = 500 := by
      have h1 : amountIntDigits "500.00" = ['5', '0', '0'] := by decide
      have h2 : amountFracDigits "500.00" = ['0', '0'] := by decide
      have h3 : digitsVal ['5', '0', '0'] = 500 := by decide
      have h4 : digitsVal ['0', '0'] = 0 := by decide
      rw [parseAmountRat, h1, h2, h3, h4]
      norm_num
    rw [parseRBLLine, hm]
    dsimp only
    rw [hA]
    rw [if_neg (by push_neg; exact ⟨by norm_num, by decide, by decide⟩)]
    decide
  · decide

/-- Claim C7 (amended): in the pdf-parse RBL branch, a matched line is
classified `credit` exactly when its matched description contains both
`payment` and `received` (case-insensitively); a refund keyword alone
does not make it a credit. -/
theorem rbl_credit_iff_payment_and_received (line d s a : String) (t : Txn)
    (hm : rblMatch line = some (d, s, a))
    (ht : parseRBLLine line = some t) :
    t.type = TxnType.credit ↔
      (strContains (jsToLower s) "payment" = true ∧
        strContains (jsToLower s) "received" = true) := by
  rw [parseRBLLine, hm] at ht
  dsimp only at ht
  by_cases hc : parseAmountRat a = 0 ∨ strContains (jsToLower s) "description" = true ∨
      strContains (jsToLower s) "amount" = true
  · rw [if_pos hc] at ht
    exact absurd ht (by simp)
  · rw [if_neg hc] at ht
    have ht' := Option.some.inj ht
    rw [← ht']
    by_cases hb : (strContains (jsToLower s) "payment" &&
        strContains (jsToLower s) "received") = true
    · have hb' := Bool.and_eq_true_iff.mp hb
      simp [hb, hb'.1, hb'.2]
    · simp only [hb, Bool.false_eq_true, if_false]
      constructor
      · intro h
        exact absurd h (by decide)
      · intro hpr
        exact absurd (Bool.and_eq_true_iff.mpr hpr) hb

/-- Claim C7, concrete instance: the payment-received line is classified
credit by the amended rule. -/
theorem rbl_credit_iff_payment_and_received_check :
    rblMatch "26 Dec 2025 PAYMENT RECEIVED - BBPS 5,099.00" =
        some ("26 Dec 2025", "PAYMENT RECEIVED - BBPS", "5,099.00") ∧
      (parseRBLLine "26 Dec 2025 PAYMENT RECEIVED - BBPS 5,099.00").map
        (fun t => t.type) = some TxnType.credit := by
  have hm : rblMatch "26 Dec 2025 PAYMENT RECEIVED - BBPS 5,099.00" =
      some ("26 Dec 2025", "PAYMENT RECEIVED - BBPS", "5,099.00") := by decide
  have hA : parseAmountRat "5,099.00" = 5099 := by
    have h1 : amountIntDigits "5,099.00" = ['5', '0', '9', '9'] := by decide
    have h2 : amountFracDigits "5,099.00" = ['0', '0'] := by decide
    have h3 : digitsVal ['5', '0', '9', '9'] = 5099 := by decide
    have h4 : digitsVal ['0', '0'] = 0 := by decide
    rw [parseAmountRat, h1, h2, h3, h4]
    norm_num
  have hP : parseRBLLine "26 Dec 2025 PAYMENT RECEIVED - BBPS 5,099.00" =
      some { date := "26 Dec 2025", description := "PAYMENT RECEIVED - BBPS",
             amount := 5099, type := TxnType.credit } := by
    rw [parseRBLLine, hm]
    dsimp only
    rw [hA]
    rw [if_neg (by push_neg; exact ⟨by norm_num, by decide, by decide⟩)]
    decide
  refine ⟨hm, ?_⟩
  rw [hP]
  have hcr := (rbl_credit_iff_payment_and_received _ _ _ _ _ hm hP).mpr
    ⟨by decide, by decide⟩
  simp [hcr]

/-! ### Claim C8 — repeated runs and the output document -/

/-- Claim C8, counterexample to the claim as stated: the written output
document embeds `extractedAt: new Date().toISOString()`, so two runs on the
same (here: empty) input performed at different instants produce documents
that are not byte-identical. -/
theorem pipeline_output_timestamp_cx :
    buildOutput "2026-01-01T00:00:00.000Z" [] ≠
      buildOutput "2026-01-02T00:00:00.000Z" [] := by decide

/-- Claim C8 (amended): apart from the `extractedAt` timestamp, the output
document is a deterministic function of the input extraction list — re-running
the pipeline on identical, order-preserved input reproduces every other field
byte for byte. -/
theorem pipeline_output_deterministic_modulo_timestamp (t1 t2 : String)
    (exs : List Extraction) :
    { buildOutput t1 exs with extractedAt := "" } =
      { buildOutput t2 exs with extractedAt := "" } := rfl

/-- Claim C8, concrete instance of the amended statement. -/
theorem pipeline_output_deterministic_modulo_timestamp_check :
    { buildOutput "2026-01-01T00:00:00.000Z" [] with extractedAt := "" } =
      { buildOutput "2026-01-02T00:00:00.000Z" [] with extractedAt := "" } :=
  pipeline_output_deterministic_modulo_timestamp _ _ []

/-! ### Shared structure of `addEMIInstallment` -/

/-- either the chosen key already exists (in-place routing) or a fresh entry is
appended and then immediately receives the record. -/
lemma addEMI_cases (plans : List (String × EMIPlan)) (e : EMIData) (c : CardInfo) :
    (∃ v, alookup plans (chooseKey plans e c) = some v ∧
      addEMIInstallment plans e c =
        aupdate (fun p => pushInstallment p e) plans (chooseKey plans e c)) ∨
    (alookup plans (chooseKey plans e c) = none ∧
      addEMIInstallment plans e c =
        plans ++ [(chooseKey plans e c, pushInstallment (newPlan e c) e)]) := by
  rcases hlk : alookup plans (chooseKey plans e c) with _ | v
  · right
    refine ⟨rfl, ?_⟩
    rw [addEMIInstallment]
    rw [hlk]
    simp only [Option.isSome_none, Bool.false_eq_true, if_false]
    exact aupdate_append_not_mem _ _ ((alookup_eq_none _ _).mp hlk)
  · left
    refine ⟨v, rfl, ?_⟩
    rw [addEMIInstallment]
    rw [hlk]
    simp only [Option.isSome_some, if_true]

/-! ### Claim C2 — paid / remaining / status invariants -/

/-- the paid/remaining bookkeeping invariant of an EMI plan. -/
def InvPR (p : EMIPlan) : Prop :=
  p.installments_paid = maxInstSeen p.installments ∧
  p.remaining_installments =
    max 0 ((p.total_installments : Int) - (p.installments_paid : Int))

lemma InvPR_push (p : EMIPlan) (e : EMIData) : InvPR (pushInstallment p e) :=
  ⟨rfl, rfl⟩

lemma InvPR_finalize (p : EMIPlan) : InvPR (finalizePlan p) := by
  constructor
  · show maxInstSeen p.installments = maxInstSeen (sortInstallments p.installments)
    exact maxInstSeen_perm (insertionSortBy_perm _ _).symm
  · rfl

/-- Claim C2: after every insertion every plan in the map satisfies
`installmentsPaid = max(installmentNumber)` and
`remainingInstallments = max(0, totalInstallments - installmentsPaid)`, and
every finalized plan additionally satisfies
`status = completed ↔ remainingInstallments = 0`. -/
theorem emi_paid_remaining_status_invariant
    (plans : List (String × EMIPlan)) (e : EMIData) (c : CardInfo)
    (h : ∀ kv ∈ plans, InvPR kv.2) :
    (∀ kv ∈ addEMIInstallment plans e c, InvPR kv.2) ∧
    (∀ p ∈ emiListOf plans,
      InvPR p ∧ (p.status = PlanStatus.completed ↔ p.remaining_installments = 0)) := by
  constructor
  · intro kv hkv
    rcases addEMI_cases plans e c with ⟨v, _, he⟩ | ⟨_, he⟩
    · rw [he] at hkv
      rcases mem_aupdate hkv with hold | ⟨w, _, hkv'⟩
      · exact h kv hold
      · rw [hkv']
        exact InvPR_push w e
    · rw [he] at hkv
      rcases List.mem_append.mp hkv with hold | hnewm
      · exact h kv hold
      · have : kv = (chooseKey plans e c, pushInstallment (newPlan e c) e) := by
          simpa using hnewm
        rw [this]
        exact InvPR_push (newPlan e c) e
  · intro p hp
    obtain ⟨kv, _, hpe⟩ := List.mem_map.mp hp
    refine ⟨hpe ▸ InvPR_finalize kv.2, ?_⟩
    rw [← hpe]
    show (if max 0 ((kv.2.total_installments : Int) - (maxInstSeen kv.2.installments : Int)) = 0
        then PlanStatus.completed else PlanStatus.active) = PlanStatus.completed ↔ _
    by_cases hz :
        max 0 ((kv.2.total_installments : Int) - (maxInstSeen kv.2.installments : Int)) = 0
    · simp [finalizePlan, hz]
    · simp [finalizePlan, hz]

/-- Claim C2, concrete instance: inserting one record into the empty map. -/
theorem emi_paid_remaining_status_invariant_check :
    (∀ kv ∈ addEMIInstallment []
        { date := "05/01/2025", merchant := "NETFLIX", installment := 2, total := 6,
          principal := 500, interest := 45, gst := 0 }
        ⟨"ICICI Bank", "7003"⟩, InvPR kv.2) ∧
    (∀ p ∈ emiListOf [], InvPR p ∧
      (p.status = PlanStatus.completed ↔ p.remaining_installments = 0)) :=
  emi_paid_remaining_status_invariant [] _ _ (by simp)

/-! ### Claim C3 — `totalAmount = principal + interest + gst` for every entry -/

/-- the per-entry sum invariant. -/
def SumOkInst (inst : EMIInstallment) : Prop :=
  inst.total_amount = inst.principal + inst.interest + inst.gst

/-- the sum invariant over a whole plan map. -/
def SumOkPlans (plans : List (String × EMIPlan)) : Prop :=
  ∀ kv ∈ plans, ∀ inst ∈ kv.2.installments, SumOkInst inst

lemma sumok_mkInstallment (e : EMIData) : SumOkInst (mkInstallment e) := rfl

lemma push_installments_perm (p : EMIPlan) (e : EMIData) :
    ((pushInstallment p e).installments).Perm (p.installments ++ [mkInstallment e]) :=
  insertionSortBy_perm _ _

lemma sumok_push {p : EMIPlan} (e : EMIData)
    (h : ∀ inst ∈ p.installments, SumOkInst inst) :
    ∀ inst ∈ (pushInstallment p e).installments, SumOkInst inst := by
  intro inst hmem
  have hmem' := (push_installments_perm p e).mem_iff.mp hmem
  rcases List.mem_append.mp hmem' with h1 | h1
  · exact h inst h1
  · have : inst = mkInstallment e := by simpa using h1
    rw [this]
    exact sumok_mkInstallment e

lemma sumok_addEMI {plans : List (String × EMIPlan)} (e : EMIData) (c : CardInfo)
    (h : SumOkPlans plans) : SumOkPlans (addEMIInstallment plans e c) := by
  intro kv hkv
  rcases addEMI_cases plans e c with ⟨v, hv, he⟩ | ⟨_, he⟩
  · rw [he] at hkv
    rcases mem_aupdate hkv with hold | ⟨w, hw, hkv'⟩
    · exact h kv hold
    · rw [hkv']
      exact sumok_push e (h (chooseKey plans e c, w) hw)
  · rw [he] at hkv
    rcases List.mem_append.mp hkv with hold | hnewm
    · exact h kv hold
    · have hkv' : kv = (chooseKey plans e c, pushInstallment (newPlan e c) e) := by
        simpa using hnewm
      rw [hkv']
      exact sumok_push e (by intro inst hi; simp [newPlan] at hi)

lemma sumok_foldRecords {recs : List (String × EMIRecord)} {c : CardInfo}
    {plans : List (String × EMIPlan)} (h : SumOkPlans plans) :
    SumOkPlans (recs.foldl (fun ps kv => addEMIInstallment ps (recordToEMIData kv.2) c) plans) := by
  induction recs generalizing plans with
  | nil => exact h
  | cons kv rest ih => exact ih (sumok_addEMI _ _ h)

lemma sumok_runPipeline (exs : List Extraction) : SumOkPlans (runPipeline exs) := by
  rw [runPipeline]
  have : ∀ (l : List Extraction) (acc : List (String × EMIPlan)), SumOkPlans acc →
      SumOkPlans (l.foldl processExtraction acc) := by
    intro l
    induction l with
    | nil => intro acc h; exact h
    | cons ex rest ih =>
      intro acc h
      exact ih _ (sumok_foldRecords h)
  exact this exs [] (by intro kv hkv; simp at hkv)

lemma finalize_installments_perm (plan : EMIPlan) :
    ((finalizePlan plan).installments).Perm plan.installments :=
  insertionSortBy_perm _ _

/-- Claim C3: every installment entry of every plan in the written output
document satisfies `totalAmount = principal + interest + gst`; the sum is
fixed at append time (`mkInstallment`) and the later pipeline stages
(re-sorting on insert, finalisation) only permute the appended entries. -/
theorem installment_total_amount_invariant :
    (∀ (now : String) (exs : List Extraction),
      ∀ p ∈ (buildOutput now exs).emiPlans, ∀ inst ∈ p.installments,
        inst.total_amount = inst.principal + inst.interest + inst.gst)
    ∧ (∀ plan : EMIPlan, ((finalizePlan plan).installments).Perm plan.installments)
    ∧ (∀ (plan : EMIPlan) (e : EMIData),
        ((pushInstallment plan e).installments).Perm
          (plan.installments ++ [mkInstallment e])) := by
  refine ⟨?_, finalize_installments_perm, push_installments_perm⟩
  intro now exs p hp inst hinst
  have hp' : p ∈ emiListOf (runPipeline exs) := by
    have hperm : ((buildOutput now exs).emiPlans).Perm (emiListOf (runPipeline exs)) :=
      insertionSortBy_perm _ _
    exact hperm.mem_iff.mp hp
  obtain ⟨kv, hkv, hpe⟩ := List.mem_map.mp hp'
  have hmem : inst ∈ kv.2.installments := by
    rw [← hpe] at hinst
    exact (finalize_installments_perm kv.2).mem_iff.mp hinst
  exact sumok_runPipeline exs kv hkv inst hmem

/-- Claim C3, concrete instance: appending a record to a concrete plan only
adds the freshly summed entry, up to the date re-sort. -/
theorem installment_total_amount_invariant_check :
    ((pushInstallment (newPlan
        { date := "05/01/2025", merchant := "NETFLIX", installment := 2, total := 6,
          principal := 500, interest := 45, gst := 0 } ⟨"ICICI Bank", "7003"⟩)
        { date := "05/01/2025", merchant := "NETFLIX", installment := 2, total := 6,
          principal := 500, interest := 45, gst := 0 }).installments).Perm
      ((newPlan
        { date := "05/01/2025", merchant := "NETFLIX", installment := 2, total := 6,
          principal := 500, interest := 45, gst := 0 } ⟨"ICICI Bank", "7003"⟩).installments ++
        [mkInstallment
        { date := "05/01/2025", merchant := "NETFLIX", installment := 2, total := 6,
          principal := 500, interest := 45, gst := 0 }]) :=
  installment_total_amount_invariant.2.2 _ _

/-! ### Claims C4 / C10 — the orphan GST assignment -/

lemma emiLineInfo_of_gst (tx : Txn)
    (h : (parseEMITransaction tx.description).ptype = some PType.gst) :
    emiLineInfo tx = none := by
  rcases hp : parseEMITransaction tx.description with ⟨pt, m, i, t⟩
  rw [hp] at h
  simp only at h
  subst h
  cases m <;> cases i <;> cases t <;> simp [emiLineInfo, hp]

lemma recordStep_gst (st : List (String × EMIRecord)) (i : Nat) (tx : Txn)
    (h : (parseEMITransaction tx.description).ptype = some PType.gst) :
    recordStep st i tx = assignGst st i tx := by
  simp only [recordStep, emiLineInfo_of_gst tx h, h]

/-- the stable-sort order used on GST candidates is total and transitive. -/
lemma distLe_total (i : Nat) (a b : String × EMIRecord) :
    ((fun a b : String × EMIRecord => decide (txDist a.2 i ≤ txDist b.2 i)) a b ||
      (fun a b : String × EMIRecord => decide (txDist a.2 i ≤ txDist b.2 i)) b a) = true := by
  simp [Nat.le_total]

lemma distLe_trans (i : Nat) (a b c : String × EMIRecord)
    (h1 : (fun a b : String × EMIRecord => decide (txDist a.2 i ≤ txDist b.2 i)) a b = true)
    (h2 : (fun a b : String × EMIRecord => decide (txDist a.2 i ≤ txDist b.2 i)) b c = true) :
    (fun a b : String × EMIRecord => decide (txDist a.2 i ≤ txDist b.2 i)) a c = true := by
  simp only [decide_eq_true_eq] at h1 h2 ⊢
  exact le_trans h1 h2

/-- Claim C4: a tax line considers exactly the same-date records with `gst`
still zero; when at least one exists, a candidate of minimal transaction-index
distance receives the tax amount by an in-place `gst` update; when none exists
the state is unchanged. -/
theorem gst_orphan_nearest_assignment
    (st : List (String × EMIRecord)) (i : Nat) (tx : Txn)
    (hgst : (parseEMITransaction tx.description).ptype = some PType.gst)
    (_hnd : (st.map Prod.fst).Nodup) :
    (st.filter (fun kv => decide (kv.2.date = tx.date ∧ kv.2.gst = 0)) = [] →
      recordStep st i tx = st) ∧
    (st.filter (fun kv => decide (kv.2.date = tx.date ∧ kv.2.gst = 0)) ≠ [] →
      ∃ k r, (k, r) ∈ st ∧ r.date = tx.date ∧ r.gst = 0 ∧
        (∀ kv ∈ st.filter (fun kv => decide (kv.2.date = tx.date ∧ kv.2.gst = 0)),
          txDist r i ≤ txDist kv.2 i) ∧
        recordStep st i tx =
          aupdate (fun r0 => { r0 with gst := tx.amount }) st k) := by
  rw [recordStep_gst st i tx hgst]
  constructor
  · intro hnil
    rw [assignGst]
    simp only [hnil]
    rfl
  · intro hne
    rw [assignGst]
    rcases hs : insertionSortBy
        (fun a b => decide (txDist a.2 i ≤ txDist b.2 i))
        (st.filter (fun kv => decide (kv.2.date = tx.date ∧ kv.2.gst = 0))) with _ | ⟨⟨k, r⟩, t⟩
    · exfalso
      apply hne
      have hp := insertionSortBy_perm
        (fun a b : String × EMIRecord => decide (txDist a.2 i ≤ txDist b.2 i))
        (st.filter (fun kv => decide (kv.2.date = tx.date ∧ kv.2.gst = 0)))
      rw [hs] at hp
      exact hp.symm.eq_nil
    · have hmem : (k, r) ∈
          st.filter (fun kv => decide (kv.2.date = tx.date ∧ kv.2.gst = 0)) := by
        have hp := insertionSortBy_perm
          (fun a b : String × EMIRecord => decide (txDist a.2 i ≤ txDist b.2 i))
          (st.filter (fun kv => decide (kv.2.date = tx.date ∧ kv.2.gst = 0)))
        rw [hs] at hp
        exact hp.mem_iff.mp (List.mem_cons_self _ _)
      have hmem' := List.mem_filter.mp hmem
      have hpred := of_decide_eq_true hmem'.2
      refine ⟨k, r, hmem'.1, hpred.1, hpred.2, ?_, ?_⟩
      · intro kv hkv
        have := sort_head_le _ (distLe_total i) (distLe_trans i) _ _ _ hs kv hkv
        exact of_decide_eq_true this
      · simp only [hs]
        rfl

/-- concrete record store for the C4 instance. -/
def gstCheckSt : List (String × EMIRecord) :=
  [("05/01/2025|NETFLIX|2/6",
    { date := "05/01/2025", merchant := "NETFLIX", installment := 2, total := 6,
      principal := 500, interest := 45, gst := 0, txIndex := 3 })]

/-- concrete orphan tax line for the C4 instance. -/
def gstCheckTx : Txn :=
  { date := "05/01/2025", description := "IGST-CI@18%", amount := 18,
    type := TxnType.debit }

/-- Claim C4, concrete instance: one open same-date candidate receives the
orphan GST amount. -/
theorem gst_orphan_nearest_assignment_check :
    (gstCheckSt.filter
        (fun kv => decide (kv.2.date = gstCheckTx.date ∧ kv.2.gst = 0)) ≠ []) ∧
    (∃ k r, (k, r) ∈ gstCheckSt ∧ r.date = gstCheckTx.date ∧ r.gst = 0 ∧
      (∀ kv ∈ gstCheckSt.filter
          (fun kv => decide (kv.2.date = gstCheckTx.date ∧ kv.2.gst = 0)),
        txDist r 4 ≤ txDist kv.2 4) ∧
      recordStep gstCheckSt 4 gstCheckTx =
        aupdate (fun r0 => { r0 with gst := gstCheckTx.amount }) gstCheckSt k) :=
  ⟨by decide,
    (gst_orphan_nearest_assignment gstCheckSt 4 gstCheckTx
      (by decide) (by decide)).2 (by decide)⟩

/-! ### Step lemmas for the write-once property of `gst` (Claim C10) -/

lemma nodup_keys_recordStep {st : List (String × EMIRecord)} (i : Nat) (tx : Txn)
    (hnd : (st.map Prod.fst).Nodup) :
    ((recordStep st i tx).map Prod.fst).Nodup := by
  rcases hinfo : emiLineInfo tx with _ | ⟨b, m, ins, tot⟩
  · rcases hpt : (parseEMITransaction tx.description).ptype with _ | pt
    · simpa only [recordStep, hinfo, hpt] using hnd
    · cases pt
      · simpa only [recordStep, hinfo, hpt] using hnd
      · simpa only [recordStep, hinfo, hpt] using hnd
      · simp only [recordStep, hinfo, hpt, assignGst]
        rcases hh : (insertionSortBy (fun a b => decide (txDist a.2 i ≤ txDist b.2 i))
            (st.filter (fun kv => decide (kv.2.date = tx.date ∧ kv.2.gst = 0)))).head? with
          _ | ⟨k, r⟩
        · simpa only [hh] using hnd
        · simpa only [hh, aupdate_keys] using hnd
  · simp only [recordStep, hinfo]
    by_cases hk : (alookup st (recordKey tx.date m ins tot)).isSome
    · simp only [hk, if_true]
      simpa only [aupdate_keys] using hnd
    · simp only [hk, Bool.false_eq_true, if_false]
      rw [aupdate_keys, List.map_append, List.nodup_append]
      refine ⟨hnd, by simp, ?_⟩
      intro a ha
      simp only [List.map_cons, List.map_nil, List.mem_singleton]
      intro he
      rw [he] at ha
      rw [Bool.not_eq_true, ← Bool.not_eq_true] at hk
      exact absurd (alookup_isSome_of_mem_keys ha) (by simpa using hk)

lemma gst_preserved_recordStep {st : List (String × EMIRecord)} (i : Nat) (tx : Txn)
    {k : String} {r : EMIRecord}
    (hnd : (st.map Prod.fst).Nodup)
    (hl : alookup st k = some r) (hg : r.gst ≠ 0) :
    ∃ r', alookup (recordStep st i tx) k = some r' ∧ r'.gst = r.gst := by
  rcases hinfo : emiLineInfo tx with _ | ⟨b, m, ins, tot⟩
  · rcases hpt : (parseEMITransaction tx.description).ptype with _ | pt
    · simp only [recordStep, hinfo, hpt]
      exact ⟨r, hl, rfl⟩
    · cases pt
      · simp only [recordStep, hinfo, hpt]
        exact ⟨r, hl, rfl⟩
      · simp only [recordStep, hinfo, hpt]
        exact ⟨r, hl, rfl⟩
      · simp only [recordStep, hinfo, hpt, assignGst]
        rcases hh : (insertionSortBy (fun a b => decide (txDist a.2 i ≤ txDist b.2 i))
            (st.filter (fun kv => decide (kv.2.date = tx.date ∧ kv.2.gst = 0)))).head? with
          _ | ⟨k0, r0⟩
        · simp only [hh]
          exact ⟨r, hl, rfl⟩
        · simp only [hh]
          have hmem : (k0, r0) ∈
              st.filter (fun kv => decide (kv.2.date = tx.date ∧ kv.2.gst = 0)) := by
            have hp := insertionSortBy_perm
              (fun a b : String × EMIRecord => decide (txDist a.2 i ≤ txDist b.2 i))
              (st.filter (fun kv => decide (kv.2.date = tx.date ∧ kv.2.gst = 0)))
            exact hp.mem_iff.mp (List.mem_of_mem_head? hh)
          have hmem' := List.mem_filter.mp hmem
          have hpred := of_decide_eq_true hmem'.2
          have hne : k ≠ k0 := by
            intro he
            subst he
            rw [alookup_unique hnd hmem'.1] at hl
            cases hl
            exact hg hpred.2
          rw [alookup_aupdate_ne _ _ hne]
          exact ⟨r, hl, rfl⟩
  · simp only [recordStep, hinfo]
    by_cases hk : (alookup st (recordKey tx.date m ins tot)).isSome
    · simp only [hk, if_true]
      by_cases he : k = recordKey tx.date m ins tot
      · subst he
        rw [alookup_aupdate_self, hl]
        cases b <;> exact ⟨_, rfl, rfl⟩
      · rw [alookup_aupdate_ne _ _ he]
        exact ⟨r, hl, rfl⟩
    · simp only [hk, Bool.false_eq_true, if_false]
      have hne : k ≠ recordKey tx.date m ins tot := by
        intro he
        subst he
        rw [hl] at hk
        exact hk rfl
      rw [alookup_aupdate_ne _ _ hne, alookup_append, hl]
      exact ⟨r, rfl, rfl⟩

/-- Claim C10: each tax line either leaves the record store unchanged or
overwrites the zero `gst` of exactly one record; and once a record's `gst` is
nonzero, no later step of the record-building loop changes it. -/
theorem gst_write_once_invariant :
    (∀ (st : List (String × EMIRecord)) (i : Nat) (tx : Txn),
      (parseEMITransaction tx.description).ptype = some PType.gst →
      (st.map Prod.fst).Nodup →
      (recordStep st i tx = st ∨
        ∃ st₁ st₂ k r, st = st₁ ++ (k, r) :: st₂ ∧ r.gst = 0 ∧
          recordStep st i tx = st₁ ++ (k, { r with gst := tx.amount }) :: st₂))
    ∧ (∀ (txs : List Txn) (st : List (String × EMIRecord)) (i : Nat)
        (k : String) (r : EMIRecord),
        (st.map Prod.fst).Nodup → alookup st k = some r → r.gst ≠ 0 →
        ∃ r', alookup (buildRecordsAux st i txs) k = some r' ∧ r'.gst = r.gst) := by
  constructor
  · intro st i tx hgst hnd
    rw [recordStep_gst st i tx hgst]
    rw [assignGst]
    rcases hh : (insertionSortBy (fun a b => decide (txDist a.2 i ≤ txDist b.2 i))
        (st.filter (fun kv => decide (kv.2.date = tx.date ∧ kv.2.gst = 0)))).head? with
      _ | ⟨k0, r0⟩
    · rw [hh]
      exact Or.inl rfl
    · rw [hh]
      have hmem : (k0, r0) ∈
          st.filter (fun kv => decide (kv.2.date = tx.date ∧ kv.2.gst = 0)) := by
        have hp := insertionSortBy_perm
          (fun a b : String × EMIRecord => decide (txDist a.2 i ≤ txDist b.2 i))
          (st.filter (fun kv => decide (kv.2.date = tx.date ∧ kv.2.gst = 0)))
        exact hp.mem_iff.mp (List.mem_of_mem_head? hh)
      have hmem' := List.mem_filter.mp hmem
      have hpred := of_decide_eq_true hmem'.2
      obtain ⟨l₁, l₂, hsp, hup⟩ :=
        aupdate_split (fun r0 => { r0 with gst := tx.amount }) hnd hmem'.1
      exact Or.inr ⟨l₁, l₂, k0, r0, hsp, hpred.2, hup⟩
  · intro txs
    induction txs with
    | nil => intro st i k r _ hl _; exact ⟨r, hl, rfl⟩
    | cons tx rest ih =>
      intro st i k r hnd hl hg
      obtain ⟨r', hl', hg'⟩ := gst_preserved_recordStep i tx hnd hl hg
      have hg'' : r'.gst ≠ 0 := by rw [hg']; exact hg
      obtain ⟨r'', hl'', hg''eq⟩ :=
        ih (recordStep st i tx) (i + 1) k r' (nodup_keys_recordStep i tx hnd) hl' hg''
      exact ⟨r'', hl'', by rw [hg''eq, hg']⟩

/-- Claim C10, concrete instance: a nonzero `gst` survives a later tax line. -/
theorem gst_write_once_invariant_check :
    ∃ r', alookup (buildRecordsAux
        [("05/01/2025|NETFLIX|2/6",
          { date := "05/01/2025", merchant := "NETFLIX", installment := 2, total := 6,
            principal := 500, interest := 45, gst := 18, txIndex := 3 })] 4
        [{ date := "05/01/2025", description := "IGST-CI@18%", amount := 7,
           type := TxnType.debit }]) "05/01/2025|NETFLIX|2/6" = some r' ∧
      r'.gst = (18 : ℚ) :=
  gst_write_once_invariant.2
    [{ date := "05/01/2025", description := "IGST-CI@18%", amount := 7,
       type := TxnType.debit }]
    [("05/01/2025|NETFLIX|2/6",
      { date := "05/01/2025", merchant := "NETFLIX", installment := 2, total := 6,
        principal := 500, interest := 45, gst := 18, txIndex := 3 })]
    4 "05/01/2025|NETFLIX|2/6"
    { date := "05/01/2025", merchant := "NETFLIX", installment := 2, total := 6,
      principal := 500, interest := 45, gst := 18, txIndex := 3 }
    (by decide) (by decide) (by decide)

/-! ### Claim C9 — plan identity vs. the stringly-typed plan keys -/

/-- a plan-map entry whose key encodes its plan's identity fields, the shape
every key created by `addEMIInstallment` has. -/
def PlanKeyWf (kv : String × EMIPlan) : Prop :=
  ∃ seq : Nat,
    kv.1 = kv.2.card_last4 ++ "_" ++ kv.2.merchant ++ "_" ++
      natDecimal kv.2.total_installments ++ "_" ++ natDecimal seq

lemma emiKey_data (l4 m : String) (t s : Nat) :
    (l4 ++ "_" ++ m ++ "_" ++ natDecimal t ++ "_" ++ natDecimal s).data =
      l4.data ++ '_' :: (m.data ++ '_' :: ((natDecimal t).data ++ '_' :: (natDecimal s).data)) := by
  simp [String.data_append]

lemma emiPrefix_data (l4 m : String) (t : Nat) :
    (l4 ++ "_" ++ m ++ "_" ++ natDecimal t ++ "_").data =
      l4.data ++ '_' :: (m.data ++ '_' :: ((natDecimal t).data ++ ['_'])) := by
  have : ("_" : String).data = ['_'] := rfl
  simp [String.data_append, this]

lemma natDecimal_no_underscore (n : Nat) : '_' ∉ (natDecimal n).data := by
  intro hm
  exact absurd rfl (isDigit_ne_sep (natDecimal_digits hm)).1

/-- the central injectivity fact: when the last-4 and merchant strings contain
no underscore, a key of the canonical shape that starts with the prefix
`` `${l4}_${m}_${t}_` `` must agree with it on all three identity components. -/
lemma key_prefix_components_eq
    {l4 m : String} {t : Nat} {l4' m' : String} {t' s' : Nat}
    (h4 : '_' ∉ l4.data) (hm : '_' ∉ m.data)
    (h4' : '_' ∉ l4'.data) (hm' : '_' ∉ m'.data)
    (hpre : jsStartsWith
      (l4' ++ "_" ++ m' ++ "_" ++ natDecimal t' ++ "_" ++ natDecimal s')
      (l4 ++ "_" ++ m ++ "_" ++ natDecimal t ++ "_") = true) :
    l4' = l4 ∧ m' = m ∧ t' = t := by
  rw [jsStartsWith, List.isPrefixOf_iff_prefix] at hpre
  obtain ⟨r, hr⟩ := hpre
  rw [emiKey_data, emiPrefix_data] at hr
  rw [List.append_assoc] at hr
  have hr' : l4.data ++ '_' :: (m.data ++ '_' :: ((natDecimal t).data ++ '_' :: r)) =
      l4'.data ++ '_' :: (m'.data ++ '_' :: ((natDecimal t').data ++ '_' :: (natDecimal s').data)) := by
    rw [← hr]
    simp
  obtain ⟨h1, h2⟩ := append_sep_fst_inj h4 h4' hr'
  obtain ⟨h3, h4''⟩ := append_sep_fst_inj hm hm' h2
  obtain ⟨h5, _⟩ := append_sep_fst_inj
    (natDecimal_no_underscore t) (natDecimal_no_underscore t') h4''
  refine ⟨(str_data_eq h1).symm, (str_data_eq h3).symm, ?_⟩
  exact (natDecimal_inj (str_data_eq h5)).symm

/-- every key `chooseKey` can pick starts with `` `${baseKey}_` ``. -/
lemma chooseKey_startsWith (plans : List (String × EMIPlan)) (e : EMIData) (c : CardInfo) :
    jsStartsWith (chooseKey plans e c) (emiBaseKey e c ++ "_") = true := by
  rw [chooseKey]
  rcases hf : (candidateKeysOf plans e c).find? (fun k =>
      match alookup plans k with
      | some p => canAppend p e
      | none => false) with _ | k
  · simp only [hf]
    rw [jsStartsWith, List.isPrefixOf_iff_prefix]
    have : (emiBaseKey e c ++ "_" ++ natDecimal ((candidateKeysOf plans e c).length + 1)).data =
        (emiBaseKey e c ++ "_").data ++ (natDecimal ((candidateKeysOf plans e c).length + 1)).data := by
      simp [String.data_append]
    rw [this]
    exact List.prefix_append _ _
  · simp only [hf]
    have hk := List.mem_of_find?_eq_some hf
    rw [candidateKeysOf] at hk
    exact (List.mem_filter.mp hk).2

/-- when the chosen key is absent from the map, it is the fresh
`` `${baseKey}_${candidateKeys.length + 1}` `` key. -/
lemma chooseKey_of_none {plans : List (String × EMIPlan)} {e : EMIData} {c : CardInfo}
    (h : alookup plans (chooseKey plans e c) = none) :
    chooseKey plans e c =
      emiBaseKey e c ++ "_" ++ natDecimal ((candidateKeysOf plans e c).length + 1) := by
  rw [chooseKey]
  rcases hf : (candidateKeysOf plans e c).find? (fun k =>
      match alookup plans k with
      | some p => canAppend p e
      | none => false) with _ | k
  · rfl
  · exfalso
    have hk := List.mem_of_find?_eq_some hf
    have hmem : k ∈ plans.map Prod.fst := by
      rw [candidateKeysOf] at hk
      exact List.mem_filter.mp hk |>.1
    rw [chooseKey, hf] at h
    exact absurd ((alookup_eq_none _ _).mp h) (by simpa using hmem)

/-- pushing a record does not change the identity fields of a plan. -/
lemma push_identity (p : EMIPlan) (e : EMIData) :
    (pushInstallment p e).merchant = p.merchant ∧
    (pushInstallment p e).card_last4 = p.card_last4 ∧
    (pushInstallment p e).total_installments = p.total_installments :=
  ⟨rfl, rfl, rfl⟩

lemma mk_mem_push (p : EMIPlan) (e : EMIData) :
    mkInstallment e ∈ (pushInstallment p e).installments := by
  have hp := push_installments_perm p e
  exact hp.mem_iff.mpr (List.mem_append_right _ (List.mem_cons_self _ _))

/-- `PlanKeyWf` is preserved by `addEMIInstallment`. -/
lemma planKeyWf_addEMI {plans : List (String × EMIPlan)} (e : EMIData) (c : CardInfo)
    (hwf : ∀ kv ∈ plans, PlanKeyWf kv) :
    ∀ kv ∈ addEMIInstallment plans e c, PlanKeyWf kv := by
  intro kv hkv
  rcases addEMI_cases plans e c with ⟨v, hv, he⟩ | ⟨hn, he⟩
  · rw [he] at hkv
    rcases mem_aupdate hkv with hold | ⟨w, hw, hkv'⟩
    · exact hwf kv hold
    · obtain ⟨seq, hseq⟩ := hwf _ hw
      rw [hkv']
      exact ⟨seq, hseq⟩
  · rw [he] at hkv
    rcases List.mem_append.mp hkv with hold | hnewm
    · exact hwf kv hold
    · have hkv' : kv = (chooseKey plans e c, pushInstallment (newPlan e c) e) := by
        simpa using hnewm
      rw [hkv', chooseKey_of_none hn]
      exact ⟨(candidateKeysOf plans e c).length + 1, rfl⟩

/-- Claim C9 (amended): provided no merchant name and no card last-4 string
contains an underscore — the separator of the stringly-typed plan keys — the
plan that receives a record agrees with the record on merchant, card last4 and
total installments, and all keys keep encoding their plan's identity. -/
theorem plan_identity_under_clean_keys
    (plans : List (String × EMIPlan)) (e : EMIData) (c : CardInfo)
    (hwf : ∀ kv ∈ plans, PlanKeyWf kv ∧ '_' ∉ kv.2.merchant.data ∧
      '_' ∉ kv.2.card_last4.data)
    (hm : '_' ∉ e.merchant.data) (hc : '_' ∉ c.last4.data) :
    (∃ plan', alookup (addEMIInstallment plans e c) (chooseKey plans e c) = some plan' ∧
      plan'.merchant = e.merchant ∧ plan'.card_last4 = c.last4 ∧
      plan'.total_installments = e.total ∧ mkInstallment e ∈ plan'.installments)
    ∧ (∀ kv ∈ addEMIInstallment plans e c, PlanKeyWf kv) := by
  constructor
  · rcases addEMI_cases plans e c with ⟨v, hv, he⟩ | ⟨hn, he⟩
    · refine ⟨pushInstallment v e, ?_, ?_, ?_, ?_, mk_mem_push v e⟩
      · rw [he, alookup_aupdate_self, hv]
        rfl
      all_goals {
        obtain ⟨hwf1, hwf2, hwf3⟩ := hwf _ (alookup_mem hv)
        obtain ⟨seq, hseq⟩ := hwf1
        dsimp only at hseq hwf2 hwf3
        have hpre := chooseKey_startsWith plans e c
        rw [hseq] at hpre
        have := key_prefix_components_eq hc hm hwf3 hwf2 (by
          rw [emiBaseKey] at hpre
          exact hpre)
        first
        | exact this.1
        | exact this.2.1
        | exact this.2.2
      }
    · refine ⟨pushInstallment (newPlan e c) e, ?_, rfl, rfl, rfl,
        mk_mem_push (newPlan e c) e⟩
      rw [he, alookup_append, hn]
      simp [alookup]
  · exact planKeyWf_addEMI e c (fun kv hkv => (hwf kv hkv).1)

/-- first record of the C9 counterexample: merchant `A_2`, tenure 2. -/
def c9Data1 : EMIData :=
  { date := "01/01/2025", merchant := "A_2", installment := 1, total := 2,
    principal := 100, interest := 0, gst := 0 }

/-- second record of the C9 counterexample: merchant `A`, tenure 2. -/
def c9Data2 : EMIData :=
  { date := "01/03/2025", merchant := "A", installment := 2, total := 2,
    principal := 100, interest := 0, gst := 0 }

def c9Card : CardInfo := ⟨"B", "7003"⟩

/-- Claim C9, counterexample to the claim as stated (for arbitrary merchant
characters): the record for merchant `A` (tenure 2) is routed into the plan for
merchant `A_2` (tenure 2), because the key `7003_A_2_2_1` of that plan starts
with the prefix `7003_A_2_` computed for merchant `A`.  After both insertions
the map holds a single plan, with merchant `A_2` and two installments. -/
theorem plan_identity_cx :
    (addEMIInstallment (addEMIInstallment [] c9Data1 c9Card) c9Data2 c9Card).map
        (fun kv => (kv.1, kv.2.merchant, kv.2.installments.length)) =
      [("7003_A_2_2_1", "A_2", 2)] ∧
    c9Data2.merchant ≠ "A_2" := by
  constructor
  · decide
  · decide

/-- Claim C9, concrete instance of the amended statement (clean merchants). -/
theorem plan_identity_under_clean_keys_check :
    (∃ plan', alookup (addEMIInstallment [] c9Data2 c9Card)
        (chooseKey [] c9Data2 c9Card) = some plan' ∧
      plan'.merchant = c9Data2.merchant ∧ plan'.card_last4 = c9Card.last4 ∧
      plan'.total_installments = c9Data2.total ∧
      mkInstallment c9Data2 ∈ plan'.installments)
    ∧ (∀ kv ∈ addEMIInstallment [] c9Data2 c9Card, PlanKeyWf kv) :=
  plan_identity_under_clean_keys [] c9Data2 c9Card (by simp) (by decide) (by decide)

/-! ### Claim C1 — routing of a record to the first eligible plan -/

lemma mem_of_getLast_some {α : Type _} :
    ∀ {l : List α} {a : α}, l.getLast? = some a → a ∈ l := by
  intro l
  induction l with
  | nil => intro a h; simp at h
  | cons x xs ih =>
    intro a h
    cases xs with
    | nil =>
      simp at h
      simp [h]
    | cons y ys =>
      rw [List.getLast?_cons_cons] at h
      exact List.mem_cons_of_mem _ (ih h)

/-- eligibility of a plan for a new record, phrased the way the claim phrases
it: strictly larger installment number than the plan's current maximum, and an
absolute day gap of at least 20 between the record's date and the plan's
latest-dated (maximal-date) installment. -/
def specEligible (p : EMIPlan) (e : EMIData) : Prop :=
  maxInstSeen p.installments < e.installment ∧
  ∃ dRec dMax : Int, jsDateDays e.date = some dRec ∧
    (∃ inst ∈ p.installments, jsDateDays inst.date = some dMax) ∧
    (∀ inst ∈ p.installments, ∀ d : Int, jsDateDays inst.date = some d → d ≤ dMax) ∧
    20 ≤ (dMax - dRec).natAbs

/-- the reachable-plan shape `addEMIInstallment` maintains for every stored
plan: parseable installment dates, at least one installment, and a list kept
sorted by the date comparator. -/
def WfStoredPlan (p : EMIPlan) : Prop :=
  (∀ inst ∈ p.installments, (jsDateDays inst.date).isSome = true) ∧
  p.installments ≠ [] ∧ chainLeBy instDateLe p.installments = true

/-- the code's `canAppend` test coincides with the claim's eligibility
condition on well-formed stored plans: the sorted-last installment is exactly
a latest-dated one. -/
lemma canAppend_iff_specEligible (p : EMIPlan) (e : EMIData)
    (hwf : WfStoredPlan p)
    (hrec : (jsDateDays e.date).isSome = true) :
    canAppend p e = true ↔ specEligible p e := by
  obtain ⟨hdates, hne, hsort⟩ := hwf
  obtain ⟨dRec, hdRec⟩ := Option.isSome_iff_exists.mp hrec
  rcases hg : p.installments.getLast? with _ | lst
  · exact absurd (List.getLast?_eq_none_iff.mp hg) hne
  · have hlstmem : lst ∈ p.installments := mem_of_getLast_some hg
    obtain ⟨dl, hdl⟩ := Option.isSome_iff_exists.mp (hdates lst hlstmem)
    have hgap : dateGapOf p e = some (dl - dRec).natAbs := by
      simp only [dateGapOf, hg, hdl, hdRec]
    have hca : canAppend p e = true ↔
        (maxInstSeen p.installments < e.installment ∧ 20 ≤ (dl - dRec).natAbs) := by
      rw [canAppend, hgap]
      simp
    rw [hca]
    constructor
    · rintro ⟨h1, h2⟩
      exact ⟨h1, dRec, dl, hdRec, ⟨lst, hlstmem, hdl⟩,
        chain_last_ge _ hsort hdates lst hg dl hdl, h2⟩
    · rintro ⟨h1, dRec', dMax, hdRec', ⟨inst0, hinst0, hdmax⟩, hmax, hgap'⟩
      rw [hdRec] at hdRec'
      cases hdRec'
      have h5 : dMax ≤ dl := chain_last_ge _ hsort hdates lst hg dl hdl inst0 hinst0 dMax hdmax
      have h6 : dl ≤ dMax := hmax lst hlstmem dl hdl
      have : dMax = dl := le_antisymm h5 h6
      subst this
      exact ⟨h1, hgap'⟩

/-- Claim C1: a record is appended to the first (in creation order) existing
plan under the `(cardLast4, merchant, totalInstallments)` key prefix that is
eligible — strictly increasing installment number and a day gap of at least 20
to the plan's latest-dated installment — and when no existing candidate is
eligible, a brand-new plan holding exactly this record is appended under the
fresh sequence index `candidateKeys.length + 1`. -/
theorem emi_record_routed_to_first_eligible_plan
    (plans : List (String × EMIPlan)) (e : EMIData) (c : CardInfo)
    (hwf : ∀ kv ∈ plans, WfStoredPlan kv.2)
    (hrec : (jsDateDays e.date).isSome = true)
    (hfresh : alookup plans (emiBaseKey e c ++ "_" ++
      natDecimal ((candidateKeysOf plans e c).length + 1)) = none) :
    (∃ pre k post plan,
      candidateKeysOf plans e c = pre ++ k :: post ∧
      alookup plans k = some plan ∧ specEligible plan e ∧
      (∀ k' ∈ pre, ∃ p', alookup plans k' = some p' ∧ ¬ specEligible p' e) ∧
      addEMIInstallment plans e c = aupdate (fun p => pushInstallment p e) plans k) ∨
    ((∀ k' ∈ candidateKeysOf plans e c,
        ∃ p', alookup plans k' = some p' ∧ ¬ specEligible p' e) ∧
      addEMIInstallment plans e c = plans ++
        [(emiBaseKey e c ++ "_" ++ natDecimal ((candidateKeysOf plans e c).length + 1),
          pushInstallment (newPlan e c) e)] ∧
      (pushInstallment (newPlan e c) e).installments = [mkInstallment e]) := by
  have hsomeOf : ∀ k' ∈ candidateKeysOf plans e c, ∃ p', alookup plans k' = some p' := by
    intro k' hk'
    rw [candidateKeysOf] at hk'
    exact Option.isSome_iff_exists.mp
      (alookup_isSome_of_mem_keys (List.mem_filter.mp hk').1)
  rcases hf : (candidateKeysOf plans e c).find? (fun k =>
      match alookup plans k with
      | some p => canAppend p e
      | none => false) with _ | k
  · right
    have hck : chooseKey plans e c = emiBaseKey e c ++ "_" ++
        natDecimal ((candidateKeysOf plans e c).length + 1) := by
      rw [chooseKey, hf]
    refine ⟨?_, ?_, rfl⟩
    · intro k' hk'
      obtain ⟨p', hp'⟩ := hsomeOf k' hk'
      refine ⟨p', hp', ?_⟩
      have hnp := List.find?_eq_none.mp hf k' hk'
      rw [hp'] at hnp
      simp only [Bool.not_eq_true] at hnp
      rw [← canAppend_iff_specEligible p' e (hwf _ (alookup_mem hp')) hrec]
      simp [hnp]
    · rw [addEMIInstallment]
      rw [hck, hfresh]
      simp only [Option.isSome_none, Bool.false_eq_true, if_false]
      exact aupdate_append_not_mem _ _ ((alookup_eq_none _ _).mp hfresh)
  · left
    obtain ⟨hpk, pre, post, hdec, hpre⟩ := List.find?_eq_some.mp hf
    rcases hlk : alookup plans k with _ | plan
    · rw [hlk] at hpk
      exact absurd hpk (by simp)
    · rw [hlk] at hpk
      have hck : chooseKey plans e c = k := by
        rw [chooseKey, hf]
      refine ⟨pre, k, post, plan, hdec, hlk,
        (canAppend_iff_specEligible plan e (hwf _ (alookup_mem hlk)) hrec).mp hpk,
        ?_, ?_⟩
      · intro k' hk'
        have hk'c : k' ∈ candidateKeysOf plans e c := by
          rw [hdec]
          exact List.mem_append_left _ hk'
        obtain ⟨p', hp'⟩ := hsomeOf k' hk'c
        refine ⟨p', hp', ?_⟩
        have hnp := hpre k' hk'
        rw [hp'] at hnp
        simp only [Bool.not_eq_eq_eq_not, Bool.not_true] at hnp
        rw [← canAppend_iff_specEligible p' e (hwf _ (alookup_mem hp')) hrec]
        simp [hnp]
      · rw [addEMIInstallment]
        rw [hck, hlk]
        simp only [Option.isSome_some, if_true]

instance (p : EMIPlan) : Decidable (WfStoredPlan p) := by
  unfold WfStoredPlan
  exact inferInstance

/-- concrete installment for the C1 instance. -/
def c1Inst : EMIInstallment :=
  { date := "05/01/2025", installment_number := 1, total_installments := 6,
    principal := 100, interest := 0, gst := 0, total_amount := 100 }

/-- concrete one-plan store for the C1 instance. -/
def c1Plan : EMIPlan :=
  { merchant := "AMZ", card_last4 := "7003", card_bank := "ICICI Bank",
    total_installments := 6, amount_financed := 0, total_interest := 0,
    total_gst := 0, total_amount := 0, monthly_emi := 0, installments_paid := 1,
    remaining_installments := 5, installments := [c1Inst],
    status := PlanStatus.active, first_installment_date := some "05/01/2025",
    last_installment_date := none }

def c1Plans : List (String × EMIPlan) := [("7003_AMZ_6_1", c1Plan)]

def c1Data : EMIData :=
  { date := "05/03/2025", merchant := "AMZ", installment := 2, total := 6,
    principal := 100, interest := 0, gst := 0 }

def c1Card : CardInfo := ⟨"ICICI Bank", "7003"⟩

/-- Claim C1, concrete instance: routing against a one-plan store whose single
candidate is eligible (installment 2 after installment 1, 59-day gap). -/
theorem emi_record_routed_to_first_eligible_plan_check :
    (∀ kv ∈ c1Plans, WfStoredPlan kv.2) ∧
    ((∃ pre k post plan,
      candidateKeysOf c1Plans c1Data c1Card = pre ++ k :: post ∧
      alookup c1Plans k = some plan ∧ specEligible plan c1Data ∧
      (∀ k' ∈ pre, ∃ p', alookup c1Plans k' = some p' ∧ ¬ specEligible p' c1Data) ∧
      addEMIInstallment c1Plans c1Data c1Card =
        aupdate (fun p => pushInstallment p c1Data) c1Plans k) ∨
    ((∀ k' ∈ candidateKeysOf c1Plans c1Data c1Card,
        ∃ p', alookup c1Plans k' = some p' ∧ ¬ specEligible p' c1Data) ∧
      addEMIInstallment c1Plans c1Data c1Card = c1Plans ++
        [(emiBaseKey c1Data c1Card ++ "_" ++
            natDecimal ((candidateKeysOf c1Plans c1Data c1Card).length + 1),
          pushInstallment (newPlan c1Data c1Card) c1Data)] ∧
      (pushInstallment (newPlan c1Data c1Card) c1Data).installments =
        [mkInstallment c1Data])) :=
  ⟨by decide,
    emi_record_routed_to_first_eligible_plan c1Plans c1Data c1Card
      (by decide) (by decide) (by decide)⟩

/-! ### Claim C5 — one record per composite key, components accumulate -/

/-- a transaction line that the component branch files under the composite key
`(date, merchant, installment/total)`. -/
def emiKeyMatches (d m : String) (ins tot : Nat) (tx : Txn) : Bool :=
  match emiLineInfo tx with
  | some (_, m', ins', tot') => decide (tx.date = d ∧ m' = m ∧ ins' = ins ∧ tot' = tot)
  | none => false

def isPrincipalLine (tx : Txn) : Bool :=
  match emiLineInfo tx with
  | some (b, _, _, _) => !b
  | none => false

def isInterestLine (tx : Txn) : Bool :=
  match emiLineInfo tx with
  | some (b, _, _, _) => b
  | none => false

/-- total amount of the principal-marker lines filed under the key. -/
def sumPrincipal (txs : List Txn) (d m : String) (ins tot : Nat) : ℚ :=
  ((txs.filter (fun tx => emiKeyMatches d m ins tot tx && isPrincipalLine tx)).map
    (fun tx => tx.amount)).sum

/-- total amount of the interest-marker lines filed under the key. -/
def sumInterest (txs : List Txn) (d m : String) (ins tot : Nat) : ℚ :=
  ((txs.filter (fun tx => emiKeyMatches d m ins tot tx && isInterestLine tx)).map
    (fun tx => tx.amount)).sum

lemma natDecimal_no_bar (n : Nat) : '|' ∉ (natDecimal n).data := by
  intro hm
  exact absurd rfl (isDigit_ne_sep (natDecimal_digits hm)).2.1

lemma natDecimal_no_slash (n : Nat) : '/' ∉ (natDecimal n).data := by
  intro hm
  exact absurd rfl (isDigit_ne_sep (natDecimal_digits hm)).2.2

lemma recordKey_data (d m : String) (i t : Nat) :
    (recordKey d m i t).data =
      d.data ++ '|' :: (m.data ++ '|' :: ((natDecimal i).data ++ '/' :: (natDecimal t).data)) := by
  simp [recordKey, String.data_append]

/-- injectivity of the composite record key, given bar-free dates: the two
inner segments after the last `|` are digit runs around a `/`. -/
lemma recordKey_inj {d d' m m' : String} {ins ins' tot tot' : Nat}
    (hd : '|' ∉ d.data) (hd' : '|' ∉ d'.data)
    (h : recordKey d' m' ins' tot' = recordKey d m ins tot) :
    d' = d ∧ m' = m ∧ ins' = ins ∧ tot' = tot := by
  have hdata : (recordKey d' m' ins' tot').data = (recordKey d m ins tot).data := by rw [h]
  rw [recordKey_data, recordKey_data] at hdata
  obtain ⟨h1, h2⟩ := append_sep_fst_inj hd' hd hdata
  have hbar : ∀ (a b : Nat), '|' ∉ (natDecimal a).data ++ '/' :: (natDecimal b).data := by
    intro a b hm
    rcases List.mem_append.mp hm with hm' | hm'
    · exact natDecimal_no_bar a hm'
    · rcases List.mem_cons.mp hm' with hm'' | hm''
      · exact absurd hm'' (by decide)
      · exact natDecimal_no_bar b hm''
  obtain ⟨h3, h4⟩ := append_sep_last_inj (hbar ins' tot') (hbar ins tot) h2
  obtain ⟨h5, h6⟩ := append_sep_fst_inj (natDecimal_no_slash ins') (natDecimal_no_slash ins) h4
  exact ⟨str_data_eq h1, str_data_eq h3,
    natDecimal_inj (str_data_eq h5), natDecimal_inj (str_data_eq h6)⟩

/-- the reachable shape of the record store: keys encode their record's
composite key and stored dates are bar-free; keys are distinct. -/
def WfRecStore (st : List (String × EMIRecord)) : Prop :=
  (∀ kv ∈ st, kv.1 = recordKey kv.2.date kv.2.merchant kv.2.installment kv.2.total ∧
    '|' ∉ kv.2.date.data) ∧
  (st.map Prod.fst).Nodup

lemma emiKeyMatches_none {tx : Txn} (hinfo : emiLineInfo tx = none)
    (d m : String) (ins tot : Nat) : emiKeyMatches d m ins tot tx = false := by
  simp [emiKeyMatches, hinfo]

lemma emiKeyMatches_some {tx : Txn} {b : Bool} {m' : String} {ins' tot' : Nat}
    (hinfo : emiLineInfo tx = some (b, m', ins', tot')) (d m : String) (ins tot : Nat) :
    emiKeyMatches d m ins tot tx = true ↔
      (tx.date = d ∧ m' = m ∧ ins' = ins ∧ tot' = tot) := by
  simp [emiKeyMatches, hinfo]

lemma isPrincipalLine_some {tx : Txn} {b : Bool} {m' : String} {ins' tot' : Nat}
    (hinfo : emiLineInfo tx = some (b, m', ins', tot')) : isPrincipalLine tx = !b := by
  simp [isPrincipalLine, hinfo]

lemma isInterestLine_some {tx : Txn} {b : Bool} {m' : String} {ins' tot' : Nat}
    (hinfo : emiLineInfo tx = some (b, m', ins', tot')) : isInterestLine tx = b := by
  simp [isInterestLine, hinfo]

lemma sumPrincipal_cons (tx : Txn) (rest : List Txn) (d m : String) (ins tot : Nat) :
    sumPrincipal (tx :: rest) d m ins tot =
      (if (emiKeyMatches d m ins tot tx && isPrincipalLine tx) = true
        then tx.amount + sumPrincipal rest d m ins tot
        else sumPrincipal rest d m ins tot) := by
  by_cases hp : (emiKeyMatches d m ins tot tx && isPrincipalLine tx) = true <;>
    simp [sumPrincipal, List.filter_cons, hp]

lemma sumInterest_cons (tx : Txn) (rest : List Txn) (d m : String) (ins tot : Nat) :
    sumInterest (tx :: rest) d m ins tot =
      (if (emiKeyMatches d m ins tot tx && isInterestLine tx) = true
        then tx.amount + sumInterest rest d m ins tot
        else sumInterest rest d m ins tot) := by
  by_cases hp : (emiKeyMatches d m ins tot tx && isInterestLine tx) = true <;>
    simp [sumInterest, List.filter_cons, hp]

lemma emiComponentUpd_fields (b : Bool) (i : Nat) (a : ℚ) (r : EMIRecord) :
    (emiComponentUpd b i a r).date = r.date ∧
    (emiComponentUpd b i a r).merchant = r.merchant ∧
    (emiComponentUpd b i a r).installment = r.installment ∧
    (emiComponentUpd b i a r).total = r.total := by
  cases b <;> exact ⟨rfl, rfl, rfl, rfl⟩

lemma emiComponentUpd_principal (b : Bool) (i : Nat) (a : ℚ) (r : EMIRecord) :
    (emiComponentUpd b i a r).principal = r.principal + (if b = true then 0 else a) := by
  cases b <;> simp [emiComponentUpd]

lemma emiComponentUpd_interest (b : Bool) (i : Nat) (a : ℚ) (r : EMIRecord) :
    (emiComponentUpd b i a r).interest = r.interest + (if b = true then a else 0) := by
  cases b <;> simp [emiComponentUpd]

lemma wfRecStore_step {st : List (String × EMIRecord)} (i : Nat) (tx : Txn)
    (htx : '|' ∉ tx.date.data) (h : WfRecStore st) : WfRecStore (recordStep st i tx) := by
  obtain ⟨hent, hnd⟩ := h
  refine ⟨?_, nodup_keys_recordStep i tx hnd⟩
  intro kv hkv
  rcases hinfo : emiLineInfo tx with _ | ⟨b, m', ins', tot'⟩
  · simp only [recordStep, hinfo] at hkv
    rcases hpt : (parseEMITransaction tx.description).ptype with _ | pt
    · rw [hpt] at hkv
      exact hent kv hkv
    · cases pt
      · rw [hpt] at hkv
        exact hent kv hkv
      · rw [hpt] at hkv
        exact hent kv hkv
      · rw [hpt, assignGst] at hkv
        rcases hh : (insertionSortBy (fun a b => decide (txDist a.2 i ≤ txDist b.2 i))
            (st.filter (fun kv => decide (kv.2.date = tx.date ∧ kv.2.gst = 0)))).head? with
          _ | ⟨k0, r0⟩
        · rw [hh] at hkv
          exact hent kv hkv
        · rw [hh] at hkv
          rcases mem_aupdate hkv with hold | ⟨v, hv, hkv'⟩
          · exact hent kv hold
          · obtain ⟨hk1, hk2⟩ := hent _ hv
            rw [hkv']
            exact ⟨hk1, hk2⟩
  · simp only [recordStep, hinfo] at hkv
    have hst1 : ∀ kv ∈ (if (alookup st (recordKey tx.date m' ins' tot')).isSome = true
        then st else st ++ [(recordKey tx.date m' ins' tot', emiFresh tx.date m' ins' tot' i)]),
        kv.1 = recordKey kv.2.date kv.2.merchant kv.2.installment kv.2.total ∧
          '|' ∉ kv.2.date.data := by
      intro kv1 hkv1
      by_cases hk : (alookup st (recordKey tx.date m' ins' tot')).isSome = true
      · rw [if_pos hk] at hkv1
        exact hent kv1 hkv1
      · rw [if_neg hk] at hkv1
        rcases List.mem_append.mp hkv1 with hold | hnewm
        · exact hent kv1 hold
        · have : kv1 = (recordKey tx.date m' ins' tot', emiFresh tx.date m' ins' tot' i) := by
            simpa using hnewm
          rw [this]
          exact ⟨rfl, htx⟩
    rcases mem_aupdate hkv with hold | ⟨v, hv, hkv'⟩
    · exact hst1 kv hold
    · obtain ⟨hk1, hk2⟩ := hst1 _ hv
      obtain ⟨hf1, hf2, hf3, hf4⟩ := emiComponentUpd_fields b i tx.amount v
      rw [hkv']
      constructor
      · show recordKey tx.date m' ins' tot' = _
        rw [hf1, hf2, hf3, hf4]
        exact hk1
      · show '|' ∉ (emiComponentUpd b i tx.amount v).date.data
        rw [hf1]
        exact hk2

/-- a step that does not file anything under `key` preserves the record at
`key` up to a `gst`-only change. -/
lemma recordStep_lookup_other (st : List (String × EMIRecord)) (i : Nat) (tx : Txn)
    (key : String)
    (hcase : emiLineInfo tx = none ∨
      ∃ b m' ins' tot', emiLineInfo tx = some (b, m', ins', tot') ∧
        recordKey tx.date m' ins' tot' ≠ key) :
    ∃ g : EMIRecord → EMIRecord,
      (∀ r, (g r).principal = r.principal ∧ (g r).interest = r.interest) ∧
      alookup (recordStep st i tx) key = (alookup st key).map g := by
  rcases hcase with hinfo | ⟨b, m', ins', tot', hinfo, hne⟩
  · rcases hpt : (parseEMITransaction tx.description).ptype with _ | pt
    · refine ⟨id, fun r => ⟨rfl, rfl⟩, ?_⟩
      simp only [recordStep, hinfo, hpt, Option.map_id, id]
    · cases pt
      · refine ⟨id, fun r => ⟨rfl, rfl⟩, ?_⟩
        simp only [recordStep, hinfo, hpt, Option.map_id, id]
      · refine ⟨id, fun r => ⟨rfl, rfl⟩, ?_⟩
        simp only [recordStep, hinfo, hpt, Option.map_id, id]
      · simp only [recordStep, hinfo, hpt, assignGst]
        rcases hh : (insertionSortBy (fun a b => decide (txDist a.2 i ≤ txDist b.2 i))
            (st.filter (fun kv => decide (kv.2.date = tx.date ∧ kv.2.gst = 0)))).head? with
          _ | ⟨k0, r0⟩
        · refine ⟨id, fun r => ⟨rfl, rfl⟩, ?_⟩
          simp only [hh, Option.map_id, id]
        · simp only [hh]
          by_cases hke : key = k0
          · subst hke
            exact ⟨fun r => { r with gst := tx.amount }, fun r => ⟨rfl, rfl⟩,
              alookup_aupdate_self _ _ _⟩
          · refine ⟨id, fun r => ⟨rfl, rfl⟩, ?_⟩
            rw [alookup_aupdate_ne _ _ hke, Option.map_id, id]
  · simp only [recordStep, hinfo]
    refine ⟨id, fun r => ⟨rfl, rfl⟩, ?_⟩
    rw [alookup_aupdate_ne _ _ (Ne.symm hne)]
    by_cases hk : (alookup st (recordKey tx.date m' ins' tot')).isSome = true
    · rw [if_pos hk, Option.map_id, id]
    · rw [if_neg hk, alookup_append, Option.map_id, id]
      rcases hlk : alookup st key with _ | v
      · simp [alookup, hne]
      · rfl

/-- a step that files `tx` under `key` stores the updated old record, or the
updated fresh record when the key was absent. -/
lemma recordStep_lookup_match (st : List (String × EMIRecord)) (i : Nat) (tx : Txn)
    {b : Bool} {m' : String} {ins' tot' : Nat}
    (hinfo : emiLineInfo tx = some (b, m', ins', tot')) :
    alookup (recordStep st i tx) (recordKey tx.date m' ins' tot') =
      some (emiComponentUpd b i tx.amount
        (match alookup st (recordKey tx.date m' ins' tot') with
         | some r => r
         | none => emiFresh tx.date m' ins' tot' i)) := by
  simp only [recordStep, hinfo]
  rcases hlk : alookup st (recordKey tx.date m' ins' tot') with _ | r
  · simp only [Option.isSome_none, Bool.false_eq_true, if_false]
    rw [alookup_aupdate_self, alookup_append, hlk]
    simp [alookup]
  · simp only [Option.isSome_some, if_true]
    rw [alookup_aupdate_self, hlk]
    rfl

/-- the running totals stored under a key. -/
def basePrin (st : List (String × EMIRecord)) (key : String) : ℚ :=
  match alookup st key with
  | some r => r.principal
  | none => 0

def baseInt (st : List (String × EMIRecord)) (key : String) : ℚ :=
  match alookup st key with
  | some r => r.interest
  | none => 0

lemma basePrin_some {st : List (String × EMIRecord)} {key : String} {r : EMIRecord}
    (h : alookup st key = some r) : basePrin st key = r.principal := by
  rw [basePrin, h]

lemma basePrin_none {st : List (String × EMIRecord)} {key : String}
    (h : alookup st key = none) : basePrin st key = 0 := by
  rw [basePrin, h]

lemma baseInt_some {st : List (String × EMIRecord)} {key : String} {r : EMIRecord}
    (h : alookup st key = some r) : baseInt st key = r.interest := by
  rw [baseInt, h]

lemma baseInt_none {st : List (String × EMIRecord)} {key : String}
    (h : alookup st key = none) : baseInt st key = 0 := by
  rw [baseInt, h]

lemma recordStep_lookup_match_none (st : List (String × EMIRecord)) (i : Nat) (tx : Txn)
    {b : Bool} {m' : String} {ins' tot' : Nat}
    (hinfo : emiLineInfo tx = some (b, m', ins', tot'))
    (hlk : alookup st (recordKey tx.date m' ins' tot') = none) :
    alookup (recordStep st i tx) (recordKey tx.date m' ins' tot') =
      some (emiComponentUpd b i tx.amount (emiFresh tx.date m' ins' tot' i)) := by
  rw [recordStep_lookup_match st i tx hinfo, hlk]

lemma recordStep_lookup_match_some (st : List (String × EMIRecord)) (i : Nat) (tx : Txn)
    {b : Bool} {m' : String} {ins' tot' : Nat} {r0 : EMIRecord}
    (hinfo : emiLineInfo tx = some (b, m', ins', tot'))
    (hlk : alookup st (recordKey tx.date m' ins' tot') = some r0) :
    alookup (recordStep st i tx) (recordKey tx.date m' ins' tot') =
      some (emiComponentUpd b i tx.amount r0) := by
  rw [recordStep_lookup_match st i tx hinfo, hlk]

lemma wfRecStore_buildAux :
    ∀ (txs : List Txn) (i : Nat) (st : List (String × EMIRecord)),
      (∀ tx ∈ txs, '|' ∉ tx.date.data) → WfRecStore st →
      WfRecStore (buildRecordsAux st i txs) := by
  intro txs
  induction txs with
  | nil => intro i st _ h; exact h
  | cons tx rest ih =>
    intro i st htxs h
    exact ih (i + 1) _ (fun t ht => htxs t (List.mem_cons_of_mem _ ht))
      (wfRecStore_step i tx (htxs tx (List.mem_cons_self _ _)) h)

/-- the master accumulation induction for one composite key. -/
lemma buildAux_accumulates (d m : String) (ins tot : Nat) (hd : '|' ∉ d.data) :
    ∀ (txs : List Txn) (i : Nat) (st : List (String × EMIRecord)),
      (∀ tx ∈ txs, '|' ∉ tx.date.data) → WfRecStore st →
      ((alookup (buildRecordsAux st i txs) (recordKey d m ins tot)).isSome = true ↔
        ((alookup st (recordKey d m ins tot)).isSome = true ∨
          ∃ tx ∈ txs, emiKeyMatches d m ins tot tx = true)) ∧
      (∀ r', alookup (buildRecordsAux st i txs) (recordKey d m ins tot) = some r' →
        r'.date = d ∧ r'.merchant = m ∧ r'.installment = ins ∧ r'.total = tot ∧
        r'.principal = basePrin st (recordKey d m ins tot) + sumPrincipal txs d m ins tot ∧
        r'.interest = baseInt st (recordKey d m ins tot) + sumInterest txs d m ins tot) := by
  intro txs
  induction txs with
  | nil =>
    intro i st _ hwf
    constructor
    · simp [buildRecordsAux]
    · intro r' hr'
      simp only [buildRecordsAux] at hr'
      obtain ⟨hk1, hk2⟩ := hwf.1 _ (alookup_mem hr')
      obtain ⟨e1, e2, e3, e4⟩ := recordKey_inj hd hk2 hk1.symm
      refine ⟨e1, e2, e3, e4, ?_, ?_⟩
      · rw [basePrin, hr']
        simp [sumPrincipal]
      · rw [baseInt, hr']
        simp [sumInterest]
  | cons tx rest ih =>
    intro i st htxs hwf
    have htx : '|' ∉ tx.date.data := htxs tx (List.mem_cons_self _ _)
    have htxs' : ∀ t ∈ rest, '|' ∉ t.date.data :=
      fun t ht => htxs t (List.mem_cons_of_mem _ ht)
    have hwf' := wfRecStore_step i tx htx hwf
    obtain ⟨ihiff, ihfield⟩ := ih (i + 1) (recordStep st i tx) htxs' hwf'
    have hstep : buildRecordsAux st i (tx :: rest) =
        buildRecordsAux (recordStep st i tx) (i + 1) rest := rfl
    rw [hstep]
    by_cases hmatch : emiKeyMatches d m ins tot tx = true
    · rcases hinfo : emiLineInfo tx with _ | ⟨b, m', ins', tot'⟩
      · rw [emiKeyMatches_none hinfo] at hmatch
        exact absurd hmatch (by simp)
      · obtain ⟨hdte, hme, hinse, htote⟩ := (emiKeyMatches_some hinfo d m ins tot).mp hmatch
        have hkeyeq : recordKey tx.date m' ins' tot' = recordKey d m ins tot := by
          rw [hdte, hme, hinse, htote]
        have H : (alookup (recordStep st i tx) (recordKey d m ins tot)).isSome = true ∧
            basePrin (recordStep st i tx) (recordKey d m ins tot) =
              basePrin st (recordKey d m ins tot) + (if b = true then 0 else tx.amount) ∧
            baseInt (recordStep st i tx) (recordKey d m ins tot) =
              baseInt st (recordKey d m ins tot) + (if b = true then tx.amount else 0) := by
          rcases hlk0 : alookup st (recordKey d m ins tot) with _ | r0
          · have hlk' : alookup (recordStep st i tx) (recordKey d m ins tot) =
                some (emiComponentUpd b i tx.amount (emiFresh tx.date m' ins' tot' i)) := by
              rw [← hkeyeq] at hlk0 ⊢
              exact recordStep_lookup_match_none st i tx hinfo hlk0
            refine ⟨by rw [hlk']; rfl, ?_, ?_⟩
            · rw [basePrin_some hlk', emiComponentUpd_principal, basePrin_none hlk0]
              simp [emiFresh]
            · rw [baseInt_some hlk', emiComponentUpd_interest, baseInt_none hlk0]
              simp [emiFresh]
          · have hlk' : alookup (recordStep st i tx) (recordKey d m ins tot) =
                some (emiComponentUpd b i tx.amount r0) := by
              rw [← hkeyeq] at hlk0 ⊢
              exact recordStep_lookup_match_some st i tx hinfo hlk0
            refine ⟨by rw [hlk']; rfl, ?_, ?_⟩
            · rw [basePrin_some hlk', emiComponentUpd_principal, basePrin_some hlk0]
            · rw [baseInt_some hlk', emiComponentUpd_interest, baseInt_some hlk0]
        obtain ⟨hS, hbp, hbi⟩ := H
        constructor
        · rw [ihiff]
          constructor
          · intro _
            exact Or.inr ⟨tx, List.mem_cons_self _ _, hmatch⟩
          · intro _
            exact Or.inl hS
        · intro r' hr'
          obtain ⟨f1, f2, f3, f4, f5, f6⟩ := ihfield r' hr'
          refine ⟨f1, f2, f3, f4, ?_, ?_⟩
          · rw [f5, hbp, sumPrincipal_cons, hmatch, isPrincipalLine_some hinfo]
            cases b
            · simp [add_assoc]
            · simp
          · rw [f6, hbi, sumInterest_cons, hmatch, isInterestLine_some hinfo]
            cases b
            · simp
            · simp [add_assoc]
    · have hm0 : emiKeyMatches d m ins tot tx = false := by simpa using hmatch
      have hother : emiLineInfo tx = none ∨
          ∃ b m' ins' tot', emiLineInfo tx = some (b, m', ins', tot') ∧
            recordKey tx.date m' ins' tot' ≠ recordKey d m ins tot := by
        rcases hinfo : emiLineInfo tx with _ | ⟨b, m', ins', tot'⟩
        · exact Or.inl rfl
        · refine Or.inr ⟨b, m', ins', tot', rfl, ?_⟩
          intro hke
          apply hmatch
          rw [emiKeyMatches_some hinfo]
          exact recordKey_inj hd htx hke
      obtain ⟨g, hg, hlkg⟩ := recordStep_lookup_other st i tx (recordKey d m ins tot) hother
      have hiff0 : (alookup (recordStep st i tx) (recordKey d m ins tot)).isSome =
          (alookup st (recordKey d m ins tot)).isSome := by
        rw [hlkg]
        rcases alookup st (recordKey d m ins tot) with _ | r0 <;> rfl
      have hsp : sumPrincipal (tx :: rest) d m ins tot = sumPrincipal rest d m ins tot := by
        rw [sumPrincipal_cons]
        simp [hm0]
      have hsi : sumInterest (tx :: rest) d m ins tot = sumInterest rest d m ins tot := by
        rw [sumInterest_cons]
        simp [hm0]
      have hbp0 : basePrin (recordStep st i tx) (recordKey d m ins tot) =
          basePrin st (recordKey d m ins tot) := by
        rw [basePrin, hlkg]
        rcases hlk0 : alookup st (recordKey d m ins tot) with _ | r0
        · rw [basePrin, hlk0]
          rfl
        · rw [basePrin, hlk0]
          exact (hg r0).1
      have hbi0 : baseInt (recordStep st i tx) (recordKey d m ins tot) =
          baseInt st (recordKey d m ins tot) := by
        rw [baseInt, hlkg]
        rcases hlk0 : alookup st (recordKey d m ins tot) with _ | r0
        · rw [baseInt, hlk0]
          rfl
        · rw [baseInt, hlk0]
          exact (hg r0).2
      constructor
      · rw [ihiff, hiff0]
        constructor
        · rintro (h1 | ⟨t, ht, hmt⟩)
          · exact Or.inl h1
          · exact Or.inr ⟨t, List.mem_cons_of_mem _ ht, hmt⟩
        · rintro (h1 | ⟨t, ht, hmt⟩)
          · exact Or.inl h1
          · rcases List.mem_cons.mp ht with he | hm2
            · subst he
              rw [hm0] at hmt
              exact absurd hmt (by simp)
            · exact Or.inr ⟨t, hm2, hmt⟩
      · intro r' hr'
        obtain ⟨f1, f2, f3, f4, f5, f6⟩ := ihfield r' hr'
        refine ⟨f1, f2, f3, f4, ?_, ?_⟩
        · rw [f5, hbp0, hsp]
        · rw [f6, hbi0, hsi]

/-- C5: all principal-marker and interest-marker lines of one statement sharing the
composite key (date, merchant, installment/total) are folded into exactly one
installment record, whose `principal` is the sum of the amounts of the matching
principal lines and whose `interest` is the sum of the amounts of the matching
interest lines — accumulation, not overwrite.  The bar-free hypotheses on the dates
hold for every date string the statement parsers emit and keep the stringly
composite key `date|merchant|ins/tot` injective in its components. -/
theorem emi_component_accumulation (txs : List Txn) (d m : String) (ins tot : Nat)
    (hd : '|' ∉ d.data) (htxs : ∀ tx ∈ txs, '|' ∉ tx.date.data)
    (hex : ∃ tx ∈ txs, emiKeyMatches d m ins tot tx = true) :
    ∃ r, alookup (buildRecords txs) (recordKey d m ins tot) = some r ∧
      ((buildRecords txs).filter
        (fun kv => decide (kv.1 = recordKey d m ins tot))).length = 1 ∧
      r.date = d ∧ r.merchant = m ∧ r.installment = ins ∧ r.total = tot ∧
      r.principal = sumPrincipal txs d m ins tot ∧
      r.interest = sumInterest txs d m ins tot := by
  have hwf0 : WfRecStore [] := ⟨by simp, by simp⟩
  obtain ⟨hiff, hfield⟩ := buildAux_accumulates d m ins tot hd txs 0 [] htxs hwf0
  have hS : (alookup (buildRecords txs) (recordKey d m ins tot)).isSome = true := by
    rw [buildRecords, hiff]
    exact Or.inr hex
  rcases ho : alookup (buildRecords txs) (recordKey d m ins tot) with _ | r
  · rw [ho] at hS
    exact absurd hS (by simp)
  · have ho' : alookup (buildRecordsAux [] 0 txs) (recordKey d m ins tot) = some r := ho
    obtain ⟨f1, f2, f3, f4, f5, f6⟩ := hfield r ho'
    have hwf := wfRecStore_buildAux txs 0 [] htxs hwf0
    have hle := filter_key_length_le_one (k := recordKey d m ins tot) hwf.2
    have hmem : (recordKey d m ins tot, r) ∈ buildRecords txs := alookup_mem ho
    have hfm : (recordKey d m ins tot, r) ∈ (buildRecords txs).filter
        (fun kv => decide (kv.1 = recordKey d m ins tot)) :=
      List.mem_filter.mpr ⟨hmem, by simp⟩
    have hge : 1 ≤ ((buildRecords txs).filter
        (fun kv => decide (kv.1 = recordKey d m ins tot))).length :=
      List.length_pos.mpr (List.ne_nil_of_mem hfm)
    have hb0 : alookup ([] : List (String × EMIRecord)) (recordKey d m ins tot) = none := rfl
    refine ⟨r, rfl, Nat.le_antisymm hle hge, f1, f2, f3, f4, ?_, ?_⟩
    · rw [f5, basePrin_none hb0]
      exact zero_add _
    · rw [f6, baseInt_none hb0]
      exact zero_add _

def c5TxP : Txn :=
  { date := "05/01/2025"
    description := "Principal Amount Amortization - <2/6>NETFLIX"
    amount := 500
    type := TxnType.debit }

def c5TxI : Txn :=
  { date := "05/01/2025"
    description := "Interest Amount Amortization - <2/6>NETFLIX"
    amount := 45
    type := TxnType.debit }

def c5Txs : List Txn := [c5TxP, c5TxI]

/-- a principal line of 500 and an interest line of 45 under `<2/6>NETFLIX` on one
date yield exactly one record with principal 500 and interest 45 (so the stored
total of the pushed installment is 545 by the C3 invariant). -/
theorem emi_component_accumulation_check :
    (∃ r, alookup (buildRecords c5Txs) (recordKey "05/01/2025" "NETFLIX" 2 6) = some r ∧
      ((buildRecords c5Txs).filter
        (fun kv => decide (kv.1 = recordKey "05/01/2025" "NETFLIX" 2 6))).length = 1 ∧
      r.date = "05/01/2025" ∧ r.merchant = "NETFLIX" ∧ r.installment = 2 ∧ r.total = 6 ∧
      r.principal = sumPrincipal c5Txs "05/01/2025" "NETFLIX" 2 6 ∧
      r.interest = sumInterest c5Txs "05/01/2025" "NETFLIX" 2 6) ∧
    sumPrincipal c5Txs "05/01/2025" "NETFLIX" 2 6 = 500 ∧
    sumInterest c5Txs "05/01/2025" "NETFLIX" 2 6 = 45 := by
  refine ⟨emi_component_accumulation c5Txs "05/01/2025" "NETFLIX" 2 6 (by decide) (by decide)
    ⟨c5TxP, List.mem_cons_self _ _, by decide⟩, ?_, ?_⟩
  · have hb1 : (emiKeyMatches "05/01/2025" "NETFLIX" 2 6 c5TxP && isPrincipalLine c5TxP)
        = true := by decide
    have hb2 : (emiKeyMatches "05/01/2025" "NETFLIX" 2 6 c5TxI && isPrincipalLine c5TxI)
        = false := by decide
    simp [sumPrincipal, c5Txs, hb1, hb2, show c5TxP.amount = (500 : ℚ) from rfl]
  · have hb3 : (emiKeyMatches "05/01/2025" "NETFLIX" 2 6 c5TxP && isInterestLine c5TxP)
        = false := by decide
    have hb4 : (emiKeyMatches "05/01/2025" "NETFLIX" 2 6 c5TxI && isInterestLine c5TxI)
        = true := by decide
    simp [sumInterest, c5Txs, hb3, hb4, show c5TxI.amount = (45 : ℚ) from rfl]

end ETrack
